import Mathlib

/-!
Verification of the transaction-scheduling core of the banking stage.

The Rust sources are embedded shallowly:
* `ThreadSet` is a 64-bit mask, modelled as a `Nat` together with the
  source's bit operations (`core/src/banking_stage/thread_aware_account_locks.rs`).
* `ThreadAwareAccountLocks` is modelled over an arbitrary key type `K`
  (account public keys are opaque 32-byte values); its two hash maps become
  functions `K → Option _`, and the per-thread lock-count array `[u32; 64]`
  becomes a `List Nat` of length 64.  Rust panics (failed `assert!`,
  `panic!`, `unwrap`) are modelled by returning `Option.none`.
* The transaction-state container, the in-flight tracker, and the
  scheduler's batch-sending loop are modelled likewise further below.
-/

namespace Agave

/-- Number of bits in a `u64`; maximal number of worker threads. -/
def MAX_THREADS : Nat := 64

/-- `2 ^ 64`, the modulus of `u64` arithmetic. -/
def U64_MOD : Nat := 18446744073709551616

/-- `u64::MAX`. -/
def U64_MAX : Nat := 18446744073709551615

/-- A bit-set of threads an account is scheduled or can be scheduled for.
The Rust struct wraps a `u64`; the mask is a `Nat` kept below `2 ^ 64`. -/
structure ThreadSet where
  mask : Nat
deriving DecidableEq, Repr

namespace ThreadSet

/-- Source: `as_flag`, the u64 shift `1 << thread_id`.  A shift by 64 or
more is an overflow: the program panics under overflow checks, and in
plain release builds the shift amount is masked modulo 64, which is what
this models.  In particular `as_flag 64 = 1`, not `2 ^ 64`. -/
def as_flag (thread_id : Nat) : Nat := 2 ^ (thread_id % 64)

/-- The empty thread set (source: `ThreadSet::none`). -/
def none : ThreadSet := ⟨0⟩

/-- Source: `ThreadSet::any`, `as_flag(num_threads) - 1`.  For
`num_threads ≤ 63` this is the first `num_threads` bits; at
`num_threads = 64` the shift overflows, so `any 64` is a panic under
overflow checks and the empty set (`1 - 1 = 0`) in release builds. -/
def any (num_threads : Nat) : ThreadSet := ⟨as_flag num_threads - 1⟩

/-- Singleton set (source: `ThreadSet::only`). -/
def only (thread_id : Nat) : ThreadSet := ⟨as_flag thread_id⟩

/-- Population count of the mask (source: `num_threads`, i.e. `u64::count_ones`). -/
def num_threads (s : ThreadSet) : Nat :=
  (List.range MAX_THREADS).countP fun i => s.mask.testBit i

/-- `u64::trailing_zeros` restricted to the 64-bit window. -/
def trailingZeros (m : Nat) : Nat :=
  ((List.range MAX_THREADS).find? fun i => m.testBit i).getD MAX_THREADS

/-- Source: `only_one_contained`, the unique member of a singleton set. -/
def only_one_contained (s : ThreadSet) : Option Nat :=
  if s.num_threads = 1 then some (trailingZeros s.mask) else Option.none

/-- Source: `is_empty`: comparison with `ThreadSet::none`. -/
def is_empty (s : ThreadSet) : Bool := s = ThreadSet.none

/-- Source: `contains`: `self.0 & as_flag(thread_id) != 0`. -/
def contains (s : ThreadSet) (thread_id : Nat) : Bool :=
  s.mask &&& as_flag thread_id ≠ 0

/-- Source: `insert`: `self.0 |= as_flag(thread_id)`. -/
def insert (s : ThreadSet) (thread_id : Nat) : ThreadSet :=
  ⟨s.mask ||| as_flag thread_id⟩

/-- Source: `remove`: `self.0 &= !as_flag(thread_id)`; the `u64` complement
of `as_flag t` is `U64_MAX ^^^ as_flag t`. -/
def remove (s : ThreadSet) (thread_id : Nat) : ThreadSet :=
  ⟨s.mask &&& (U64_MAX ^^^ as_flag thread_id)⟩

/-- Source: `threads_iter`: the member threads in increasing order. -/
def threads_iter (s : ThreadSet) : List Nat :=
  (List.range MAX_THREADS).filter fun thread_id => s.contains thread_id

/-- Source: `impl BitAndAssign for ThreadSet`. -/
def and (a b : ThreadSet) : ThreadSet := ⟨a.mask &&& b.mask⟩

/-- Source: `impl Sub for ThreadSet`: `self.0 & !rhs.0`. -/
def sub (a b : ThreadSet) : ThreadSet := ⟨a.mask &&& (U64_MAX ^^^ b.mask)⟩

end ThreadSet

/-- Pointwise-map update, modelling `HashMap::insert` / `Entry::insert`. -/
def mapInsert {K V : Type} [DecidableEq K] (m : K → Option V) (k : K) (v : V) :
    K → Option V :=
  fun k' => if k' = k then some v else m k'

/-- Pointwise-map removal, modelling `HashMap::remove` / `Entry::remove`. -/
def mapRemove {K V : Type} [DecidableEq K] (m : K → Option V) (k : K) :
    K → Option V :=
  fun k' => if k' = k then Option.none else m k'

/-- Thread-aware account locks (source struct of the same name).  Account
keys are an arbitrary type `K`; `write_locks` maps a key to the holding
`(ThreadId, count)`; `read_locks` maps a key to the holding thread set and
the per-thread lock counts (`[LockCount; MAX_THREADS]`, of length 64). -/
structure ThreadAwareAccountLocks (K : Type) where
  num_threads : Nat
  sequential_queue_limit : Nat
  write_locks : K → Option (Nat × Nat)
  read_locks : K → Option (ThreadSet × List Nat)

namespace ThreadAwareAccountLocks

variable {K : Type} [DecidableEq K]

/-- Source: `ThreadAwareAccountLocks::new`; the three `assert!`s on the
arguments are modelled by returning `Option.none`. -/
def new (K : Type) (num_threads sequential_queue_limit : Nat) :
    Option (ThreadAwareAccountLocks K) :=
  if 0 < num_threads ∧ num_threads ≤ MAX_THREADS ∧ 0 < sequential_queue_limit then
    some { num_threads := num_threads,
           sequential_queue_limit := sequential_queue_limit,
           write_locks := fun _ => Option.none,
           read_locks := fun _ => Option.none }
  else Option.none

/-- The trailing check of `write_lock_account`: the outstanding read locks,
if any, must be exactly `ThreadSet::only(thread_id)`.  The source performs
this check after updating `write_locks`, which `read_locks` does not
depend on, so it is taken on the pre-state here. -/
def write_lock_check_read (s : ThreadAwareAccountLocks K) (account : K)
    (thread_id : Nat) (s' : ThreadAwareAccountLocks K) :
    Option (ThreadAwareAccountLocks K) :=
  match s.read_locks account with
  | some (read_thread_set, _) =>
      if read_thread_set = ThreadSet.only thread_id then some s' else Option.none
  | Option.none => some s'

/-- Source: `write_lock_account`.  Panics (`Option.none`) if the account is
write-locked on another thread, if the new count would exceed
`sequential_queue_limit`, or if an outstanding read lock is not exactly on
`thread_id`. -/
def write_lock_account (s : ThreadAwareAccountLocks K) (account : K)
    (thread_id : Nat) : Option (ThreadAwareAccountLocks K) :=
  match s.write_locks account with
  | some (lock_thread_id, lock_count) =>
      if lock_thread_id = thread_id then
        if lock_count + 1 ≤ s.sequential_queue_limit then
          let wl := mapInsert s.write_locks account (thread_id, lock_count + 1)
          write_lock_check_read s account thread_id { s with write_locks := wl }
        else Option.none
      else Option.none
  | Option.none =>
      let wl := mapInsert s.write_locks account (thread_id, 1)
      write_lock_check_read s account thread_id { s with write_locks := wl }

/-- Source: `write_unlock_account`.  Panics (`Option.none`) if the account
is not write-locked on `thread_id`. -/
def write_unlock_account (s : ThreadAwareAccountLocks K) (account : K)
    (thread_id : Nat) : Option (ThreadAwareAccountLocks K) :=
  match s.write_locks account with
  | some (lock_thread_id, lock_count) =>
      if lock_thread_id = thread_id then
        if lock_count - 1 = 0 then
          some { s with write_locks := mapRemove s.write_locks account }
        else
          let wl := mapInsert s.write_locks account (thread_id, lock_count - 1)
          some { s with write_locks := wl }
      else Option.none
  | Option.none => Option.none

/-- Source: `read_lock_account`.  Updates the read-lock entry, then panics
(`Option.none`) if the account is write-locked on another thread.  Note the
source performs no sequential-queue-limit check here. -/
def read_lock_account (s : ThreadAwareAccountLocks K) (account : K)
    (thread_id : Nat) : Option (ThreadAwareAccountLocks K) :=
  let s' :=
    match s.read_locks account with
    | some (thread_set, lock_counts) =>
        let rl := mapInsert s.read_locks account
          (thread_set.insert thread_id,
           lock_counts.set thread_id (lock_counts.getD thread_id 0 + 1))
        { s with read_locks := rl }
    | Option.none =>
        let rl := mapInsert s.read_locks account
          (ThreadSet.only thread_id, (List.replicate MAX_THREADS 0).set thread_id 1)
        { s with read_locks := rl }
  match s.write_locks account with
  | some (write_thread_id, _) =>
      if write_thread_id = thread_id then some s' else Option.none
  | Option.none => some s'

/-- Source: `read_unlock_account`.  Panics (`Option.none`) if the account
is not read-locked on `thread_id`. -/
def read_unlock_account (s : ThreadAwareAccountLocks K) (account : K)
    (thread_id : Nat) : Option (ThreadAwareAccountLocks K) :=
  match s.read_locks account with
  | some (thread_set, lock_counts) =>
      if thread_set.contains thread_id then
        let lock_counts' := lock_counts.set thread_id (lock_counts.getD thread_id 0 - 1)
        if lock_counts.getD thread_id 0 - 1 = 0 then
          if (thread_set.remove thread_id).is_empty then
            some { s with read_locks := mapRemove s.read_locks account }
          else
            let rl := mapInsert s.read_locks account
              (thread_set.remove thread_id, lock_counts')
            some { s with read_locks := rl }
        else
          let rl := mapInsert s.read_locks account (thread_set, lock_counts')
          some { s with read_locks := rl }
      else Option.none
  | Option.none => Option.none

/-- The write-key loop of `lock_accounts`. -/
def lock_write_accounts (s : ThreadAwareAccountLocks K) (accounts : List K)
    (thread_id : Nat) : Option (ThreadAwareAccountLocks K) :=
  accounts.foldlM (fun st account => write_lock_account st account thread_id) s

/-- The read-key loop of `lock_accounts`. -/
def lock_read_accounts (s : ThreadAwareAccountLocks K) (accounts : List K)
    (thread_id : Nat) : Option (ThreadAwareAccountLocks K) :=
  accounts.foldlM (fun st account => read_lock_account st account thread_id) s

/-- Source: `lock_accounts`: assert `thread_id < num_threads`, then
write-lock every write key and read-lock every read key on `thread_id`. -/
def lock_accounts (s : ThreadAwareAccountLocks K) (write_account_locks : List K)
    (read_account_locks : List K) (thread_id : Nat) :
    Option (ThreadAwareAccountLocks K) :=
  if thread_id < s.num_threads then
    lock_write_accounts s write_account_locks thread_id >>= fun s1 =>
    lock_read_accounts s1 read_account_locks thread_id
  else Option.none

/-- The write-key unlock loop. -/
def unlock_write_accounts (s : ThreadAwareAccountLocks K) (accounts : List K)
    (thread_id : Nat) : Option (ThreadAwareAccountLocks K) :=
  accounts.foldlM (fun st account => write_unlock_account st account thread_id) s

/-- The read-key unlock loop. -/
def unlock_read_accounts (s : ThreadAwareAccountLocks K) (accounts : List K)
    (thread_id : Nat) : Option (ThreadAwareAccountLocks K) :=
  accounts.foldlM (fun st account => read_unlock_account st account thread_id) s

/-- Modelled from the spec: `unlock(write_keys, read_keys, thread_id)`
decrements each lock count and removes entries when they reach zero.  The
`unlock_accounts` wrapper called by the scheduler is not among the provided
sources; the per-account unlock operations it loops over are from the
source file. -/
def unlock_accounts (s : ThreadAwareAccountLocks K) (write_account_locks : List K)
    (read_account_locks : List K) (thread_id : Nat) :
    Option (ThreadAwareAccountLocks K) :=
  unlock_write_accounts s write_account_locks thread_id >>= fun s1 =>
  unlock_read_accounts s1 read_account_locks thread_id

/-- Source: `schedulable_threads_with_read_only_handler`.  The mixed case
asserts that the read-lock set is exactly the singleton of the write
thread (`Option.none` on failure). -/
def schedulable_threads_with_read_only_handler (s : ThreadAwareAccountLocks K)
    (account : K) (read_only_handler : ThreadSet → List Nat → ThreadSet) :
    Option ThreadSet :=
  match s.write_locks account, s.read_locks account with
  | Option.none, Option.none => some (ThreadSet.any s.num_threads)
  | Option.none, some (thread_set, counts) => some (read_only_handler thread_set counts)
  | some (thread_id, count), Option.none =>
      some (if count = s.sequential_queue_limit then ThreadSet.none
            else ThreadSet.only thread_id)
  | some (thread_id, count), some (thread_set, counts) =>
      if thread_set.only_one_contained = some thread_id then
        some (if count + counts.getD thread_id 0 = s.sequential_queue_limit then
                ThreadSet.none
              else ThreadSet.only thread_id)
      else Option.none

/-- Source: `read_schedulable_threads`. -/
def read_schedulable_threads (s : ThreadAwareAccountLocks K) (account : K) :
    Option ThreadSet :=
  schedulable_threads_with_read_only_handler s account fun thread_set counts =>
    thread_set.threads_iter.foldl
      (fun schedulable thread_id =>
        if counts.getD thread_id 0 = s.sequential_queue_limit then
          schedulable.remove thread_id
        else schedulable)
      (ThreadSet.any s.num_threads)

/-- Source: `write_schedulable_threads`. -/
def write_schedulable_threads (s : ThreadAwareAccountLocks K) (account : K) :
    Option ThreadSet :=
  schedulable_threads_with_read_only_handler s account fun thread_set counts =>
    match thread_set.only_one_contained with
    | some thread_id =>
        if counts.getD thread_id 0 < s.sequential_queue_limit then
          ThreadSet.only thread_id
        else ThreadSet.none
    | Option.none => ThreadSet.none

/-- Source: `accounts_schedulable_threads`: intersect the per-account
masks of all write keys and read keys, starting from all threads. -/
def accounts_schedulable_threads (s : ThreadAwareAccountLocks K)
    (write_account_locks read_account_locks : List K) : Option ThreadSet :=
  write_account_locks.foldlM
    (fun schedulable account =>
      (write_schedulable_threads s account).map fun m => ThreadSet.and schedulable m)
    (ThreadSet.any s.num_threads) >>= fun schedulable1 =>
  read_account_locks.foldlM
    (fun schedulable account =>
      (read_schedulable_threads s account).map fun m => ThreadSet.and schedulable m)
    schedulable1

/-- Source: `try_lock_accounts`.  The outer `Option` is the panic monad;
the inner `Option Nat` is the returned `Option<ThreadId>`.  Note the
source function has no caller-supplied `schedulable_threads` parameter. -/
def try_lock_accounts (s : ThreadAwareAccountLocks K)
    (write_account_locks read_account_locks : List K)
    (thread_selector : ThreadSet → Nat) :
    Option (Option Nat × ThreadAwareAccountLocks K) :=
  accounts_schedulable_threads s write_account_locks read_account_locks >>=
    fun schedulable_threads =>
  if schedulable_threads.is_empty then some (Option.none, s)
  else
    (lock_accounts s write_account_locks read_account_locks
        (thread_selector schedulable_threads)).map
      fun s' => (some (thread_selector schedulable_threads), s')

/-- Modelled from the spec: `try_lock(write_keys, read_keys,
schedulable_threads, select_fn)` computes `S` as the intersection of
`accounts_schedulable_threads` with the caller-supplied
`schedulable_threads`, returns none if `S` is empty, and otherwise locks on
`select_fn(S)`.  This definition follows the spec's words, for comparison
with `try_lock_accounts` above, which is from the source and has no
`schedulable_threads` parameter. -/
def try_lock_accounts_spec (s : ThreadAwareAccountLocks K)
    (write_account_locks read_account_locks : List K)
    (schedulable_threads : ThreadSet) (thread_selector : ThreadSet → Nat) :
    Option (Option Nat × ThreadAwareAccountLocks K) :=
  accounts_schedulable_threads s write_account_locks read_account_locks >>=
    fun schedulable0 =>
  let schedulable := ThreadSet.and schedulable0 schedulable_threads
  if schedulable.is_empty then some (Option.none, s)
  else
    (lock_accounts s write_account_locks read_account_locks
        (thread_selector schedulable)).map
      fun s' => (some (thread_selector schedulable), s')

/-- Well-formedness of a write-lock entry: holding thread in range, count
between 1 and the limit. -/
def wfWriteEntry (limit nt : Nat) : Option (Nat × Nat) → Bool
  | Option.none => true
  | some (t, c) => decide (t < nt) && decide (1 ≤ c) && decide (c ≤ limit)

/-- Well-formedness of a read-lock entry: counts array of length 64,
nonempty mask below `2 ^ 64`, membership of a thread in the set equivalent
to a nonzero count, counts bounded by the limit, members in range. -/
def wfReadEntry (limit nt : Nat) : Option (ThreadSet × List Nat) → Bool
  | Option.none => true
  | some (ts, cnts) =>
      decide (cnts.length = 64) && decide (ts.mask ≠ 0) &&
      decide (ts.mask < 2 ^ 64) &&
      (List.range 64).all fun t =>
        (ts.contains t == decide (cnts.getD t 0 ≠ 0)) &&
        decide (cnts.getD t 0 ≤ limit) && (!ts.contains t || decide (t < nt))

/-- Well-formedness of a mixed write/read entry pair (spec invariant I1):
the read set is exactly the write thread, and the combined count is within
the limit. -/
def wfMixedEntry (limit : Nat) :
    Option (Nat × Nat) → Option (ThreadSet × List Nat) → Bool
  | some (wt, wc), some (ts, cnts) =>
      decide (ts = ThreadSet.only wt) && decide (wc + cnts.getD wt 0 ≤ limit)
  | _, _ => true

/-- Full well-formedness of a lock-table state; holds for all states
reachable through `try_lock_accounts` / `unlock_accounts`. -/
def Wf (s : ThreadAwareAccountLocks K) : Prop :=
  0 < s.num_threads ∧ s.num_threads ≤ 64 ∧ 0 < s.sequential_queue_limit ∧
  (∀ k, wfWriteEntry s.sequential_queue_limit s.num_threads (s.write_locks k) = true) ∧
  (∀ k, wfReadEntry s.sequential_queue_limit s.num_threads (s.read_locks k) = true) ∧
  (∀ k, wfMixedEntry s.sequential_queue_limit (s.write_locks k) (s.read_locks k) = true)

/-- Weak well-formedness of a write-lock entry: positive count. -/
def wfWriteEntryU : Option (Nat × Nat) → Bool
  | Option.none => true
  | some (_, c) => decide (1 ≤ c)

/-- Weak well-formedness of a read-lock entry: length-64 counts, nonempty
mask below `2 ^ 64`, membership equivalent to a nonzero count. -/
def wfReadEntryU : Option (ThreadSet × List Nat) → Bool
  | Option.none => true
  | some (ts, cnts) =>
      decide (cnts.length = 64) && decide (ts.mask ≠ 0) &&
      decide (ts.mask < 2 ^ 64) &&
      (List.range 64).all fun t => ts.contains t == decide (cnts.getD t 0 ≠ 0)

/-- Weak well-formedness, sufficient for the unlock-restores-lock law. -/
def WfU (s : ThreadAwareAccountLocks K) : Prop :=
  (∀ k, wfWriteEntryU (s.write_locks k) = true) ∧
  (∀ k, wfReadEntryU (s.read_locks k) = true)

/-- The write-lock map written by `write_unlock_account` on success. -/
def write_unlock_updated (u : ThreadAwareAccountLocks K) (k : K) (t c : Nat) :
    K → Option (Nat × Nat) :=
  if c - 1 = 0 then mapRemove u.write_locks k
  else mapInsert u.write_locks k (t, c - 1)

/-- The read-lock map written by `read_lock_account`. -/
def read_lock_updated (u : ThreadAwareAccountLocks K) (k : K) (t : Nat) :
    K → Option (ThreadSet × List Nat) :=
  match u.read_locks k with
  | some (ts, cnts) =>
      mapInsert u.read_locks k (ts.insert t, cnts.set t (cnts.getD t 0 + 1))
  | Option.none =>
      mapInsert u.read_locks k
        (ThreadSet.only t, (List.replicate MAX_THREADS 0).set t 1)

/-- The read-lock map written by `read_unlock_account` on success. -/
def read_unlock_updated (u : ThreadAwareAccountLocks K) (k : K) (t : Nat)
    (ts : ThreadSet) (cnts : List Nat) : K → Option (ThreadSet × List Nat) :=
  if cnts.getD t 0 - 1 = 0 then
    if (ts.remove t).is_empty = true then mapRemove u.read_locks k
    else mapInsert u.read_locks k (ts.remove t, cnts.set t (cnts.getD t 0 - 1))
  else mapInsert u.read_locks k (ts, cnts.set t (cnts.getD t 0 - 1))

end ThreadAwareAccountLocks

/-- The read-lock count held by `thread_id` on `account` (0 when the
account has no read-lock entry). -/
def ThreadAwareAccountLocks.read_count {K : Type}
    (s : ThreadAwareAccountLocks K) (account : K) (thread_id : Nat) : Nat :=
  match s.read_locks account with
  | some (_, counts) => counts.getD thread_id 0
  | Option.none => 0

/-- A concrete one-key lock table, read-locked once on thread 0 with
`sequential_queue_limit = 1` (the count is exactly at the limit). -/
def sReadAtLimit : ThreadAwareAccountLocks (Fin 1) :=
  { num_threads := 4, sequential_queue_limit := 1,
    write_locks := fun _ => Option.none,
    read_locks := fun _ => some (ThreadSet.only 0, (List.replicate MAX_THREADS 0).set 0 1) }

/-- A concrete one-key lock table, write-locked once on thread 1. -/
def sWriteT1 : ThreadAwareAccountLocks (Fin 1) :=
  { num_threads := 4, sequential_queue_limit := 2,
    write_locks := fun _ => some (1, 1),
    read_locks := fun _ => Option.none }

/-- A concrete one-key empty lock table with 4 threads and limit 2. -/
def sEmpty4 : ThreadAwareAccountLocks (Fin 1) :=
  { num_threads := 4, sequential_queue_limit := 2,
    write_locks := fun _ => Option.none,
    read_locks := fun _ => Option.none }

/-- A concrete empty lock table over two account keys, 2 threads, limit 2. -/
def sEmptyTwoKeys : ThreadAwareAccountLocks (Fin 2) :=
  { num_threads := 2, sequential_queue_limit := 2,
    write_locks := fun _ => Option.none,
    read_locks := fun _ => Option.none }

/-- `u64::saturating_mul`. -/
def satMul (a b : Nat) : Nat := min (a * b) U64_MAX

/-- `u64::saturating_add`. -/
def satAdd (a b : Nat) : Nat := min (a + b) U64_MAX

/-- `u64::saturating_div`: for unsigned integers this is plain division
(it can never overflow). -/
def satDiv (a b : Nat) : Nat := a / b

/-- Source: `calculate_priority_and_cost`

    reward.saturating_mul(1_000_000).saturating_div(cost.saturating_add(1))

paired with the cost.  The bank-computed `reward` and the cost-model
`cost` are taken as inputs. -/
def calculate_priority_and_cost (reward cost : Nat) : Nat × Nat :=
  (satDiv (satMul reward 1000000) (satAdd cost 1), cost)

/-- The spec's formula, read literally: exact integer arithmetic
`reward * 1000000 / (cost + 1)`, paired with the cost. -/
def calculate_priority_and_cost_spec (reward cost : Nat) : Nat × Nat :=
  (reward * 1000000 / (cost + 1), cost)

/-- Modelled from the spec: `TransactionPriorityDetails`
(solana_runtime, not in src/): priority and compute-unit limit. -/
structure TransactionPriorityDetails where
  priority : Nat
  compute_unit_limit : Nat
deriving DecidableEq

/-- Modelled from the spec: `SanitizedTransactionTTL`
(transaction_state.rs, not in src/): a transaction and its max-age slot. -/
structure SanitizedTransactionTTL (Tx : Type) where
  transaction : Tx
  max_age_slot : Nat
deriving DecidableEq

/-- Modelled from the spec: `TransactionState` (transaction_state.rs, not
in src/): Unprocessed holds the transaction TTL; Pending does not. -/
inductive TransactionState (Tx : Type) where
  | Unprocessed (transaction_ttl : SanitizedTransactionTTL Tx)
      (transaction_priority_details : TransactionPriorityDetails)
  | Pending (transaction_priority_details : TransactionPriorityDetails)
deriving DecidableEq

/-- Modelled from the spec: `TransactionState::priority`. -/
def TransactionState.priority {Tx : Type} : TransactionState Tx → Nat
  | .Unprocessed _ d => d.priority
  | .Pending d => d.priority

/-- Modelled from the spec: `TransactionState::transition_to_pending`
takes the TTL out; panics (`Option.none`) if already Pending. -/
def TransactionState.transition_to_pending {Tx : Type} :
    TransactionState Tx → Option (SanitizedTransactionTTL Tx × TransactionState Tx)
  | .Unprocessed ttl d => some (ttl, .Pending d)
  | .Pending _ => Option.none

/-- Modelled from the spec: `TransactionState::transition_to_unprocessed`
re-attaches a TTL; panics (`Option.none`) if not Pending. -/
def TransactionState.transition_to_unprocessed {Tx : Type}
    (transaction_ttl : SanitizedTransactionTTL Tx) :
    TransactionState Tx → Option (TransactionState Tx)
  | .Pending d => some (.Unprocessed transaction_ttl d)
  | .Unprocessed _ _ => Option.none

/-- Modelled from the spec: `TransactionPriorityId`
(transaction_priority_id.rs, not in src/): pair (priority, id). -/
structure TransactionPriorityId where
  priority : Nat
  id : Nat
deriving DecidableEq

/-- Modelled from the spec: the `TransactionPriorityId` ordering is
lexicographic on (priority desc, id), so the queue front is the maximum
priority and the back is the lowest-priority entry. -/
def TransactionPriorityId.before (a b : TransactionPriorityId) : Bool :=
  decide (b.priority < a.priority) ||
    (decide (a.priority = b.priority) && decide (a.id < b.id))

/-- Ordered-set (`SkipSet`) insertion into the sorted queue list: the
front is the highest-priority element. -/
def skipSetInsert (q : List TransactionPriorityId) (x : TransactionPriorityId) :
    List TransactionPriorityId :=
  match q with
  | [] => [x]
  | y :: ys =>
      if x = y then y :: ys
      else if TransactionPriorityId.before x y then x :: y :: ys
      else y :: skipSetInsert ys x

/-- Modelled from the spec: `IndexedMap` (external indexed_map crate, not
in src/): an id-keyed map hands out strictly monotonic indices and
rejects inserts at capacity. -/
structure IndexedMap (V : Type) where
  capacity : Nat
  entries : List (Nat × V)
  next_index : Nat

/-- Modelled from the spec: `IndexedMap::with_capacity`. -/
def IndexedMap.with_capacity (V : Type) (capacity : Nat) : IndexedMap V :=
  ⟨capacity, [], 0⟩

/-- Modelled from the spec: `IndexedMap::insert` allocates the next index,
or fails when the map is at capacity. -/
def IndexedMap.insert {V : Type} (m : IndexedMap V) (v : V) :
    Option (Nat × IndexedMap V) :=
  if m.entries.length < m.capacity then
    some (m.next_index,
      ⟨m.capacity, m.entries ++ [(m.next_index, v)], m.next_index + 1⟩)
  else Option.none

/-- Modelled from the spec: `IndexedMap::get`. -/
def IndexedMap.get {V : Type} (m : IndexedMap V) (id : Nat) : Option V :=
  (m.entries.find? fun e => e.1 == id).map Prod.snd

/-- Modelled from the spec: `IndexedMap::remove` returns the removed value
or fails if the id is absent. -/
def IndexedMap.remove {V : Type} (m : IndexedMap V) (id : Nat) :
    Option (V × IndexedMap V) :=
  match m.entries.find? fun e => e.1 == id with
  | some e =>
      some (e.2, ⟨m.capacity, m.entries.filter fun p => !(p.1 == id),
        m.next_index⟩)
  | Option.none => Option.none

/-- Modelled from the spec: in-place value update at an existing id. -/
def IndexedMap.set {V : Type} (m : IndexedMap V) (id : Nat) (v : V) :
    IndexedMap V :=
  ⟨m.capacity, m.entries.map fun p => if p.1 == id then (id, v) else p,
    m.next_index⟩

/-- Source: `TransactionStateContainer`: a capacity, the sorted priority
queue (front = maximum), and the id-to-state map. -/
structure TransactionStateContainer (Tx : Type) where
  capacity : Nat
  priority_queue : List TransactionPriorityId
  id_to_transaction_state : IndexedMap (TransactionState Tx)

/-- Source: `TransactionStateContainer::with_capacity`: the inner map gets
capacity + 1. -/
def TransactionStateContainer.with_capacity {Tx : Type} (capacity : Nat) :
    TransactionStateContainer Tx :=
  ⟨capacity, [], IndexedMap.with_capacity (TransactionState Tx) (capacity + 1)⟩

/-- Source: `remaining_queue_capacity`. -/
def TransactionStateContainer.remaining_queue_capacity {Tx : Type}
    (c : TransactionStateContainer Tx) : Nat :=
  c.capacity - c.priority_queue.length

/-- Source: `push_id_into_queue`: insert, then if
`remaining_queue_capacity() == 0` pop the back (lowest priority), remove
it from the map (`Option.none` on the `unwrap`/`expect` panics), and
return true; else return false. -/
def TransactionStateContainer.push_id_into_queue {Tx : Type}
    (c : TransactionStateContainer Tx) (priority_id : TransactionPriorityId) :
    Option (Bool × TransactionStateContainer Tx) :=
  let q1 := skipSetInsert c.priority_queue priority_id
  if c.capacity - q1.length = 0 then
    match q1.getLast? with
    | Option.none => Option.none
    | some popped =>
        match c.id_to_transaction_state.remove popped.id with
        | Option.none => Option.none
        | some (_, m2) => some (true, ⟨c.capacity, q1.dropLast, m2⟩)
  else some (false, ⟨c.capacity, q1, c.id_to_transaction_state⟩)

/-- Source: `insert_new_transaction`: insert the Unprocessed state into
the map (returning false, container unchanged, if the map rejects it),
then push the (priority, index) id into the queue. -/
def TransactionStateContainer.insert_new_transaction {Tx : Type}
    (c : TransactionStateContainer Tx)
    (transaction_ttl : SanitizedTransactionTTL Tx)
    (transaction_priority_details : TransactionPriorityDetails) :
    Option (Bool × TransactionStateContainer Tx) :=
  match c.id_to_transaction_state.insert
      (TransactionState.Unprocessed transaction_ttl
        transaction_priority_details) with
  | Option.none => some (false, c)
  | some (index, m1) =>
      TransactionStateContainer.push_id_into_queue
        ⟨c.capacity, c.priority_queue, m1⟩
        (TransactionPriorityId.mk transaction_priority_details.priority index)

/-- Source: `remove_by_id` (`Option.none` on the `expect` panic). -/
def TransactionStateContainer.remove_by_id {Tx : Type}
    (c : TransactionStateContainer Tx) (id : Nat) :
    Option (TransactionStateContainer Tx) :=
  (c.id_to_transaction_state.remove id).map fun r =>
    ⟨c.capacity, c.priority_queue, r.2⟩

/-- Source: `retry_transaction`: transition the state back to Unprocessed
with the new TTL and push its priority id into the queue (`Option.none`
on the `expect`/transition panics). -/
def TransactionStateContainer.retry_transaction {Tx : Type}
    (c : TransactionStateContainer Tx) (transaction_id : Nat)
    (transaction_ttl : SanitizedTransactionTTL Tx) :
    Option (Bool × TransactionStateContainer Tx) :=
  match c.id_to_transaction_state.get transaction_id with
  | Option.none => Option.none
  | some st =>
      match TransactionState.transition_to_unprocessed transaction_ttl st with
      | Option.none => Option.none
      | some st2 =>
          TransactionStateContainer.push_id_into_queue
            ⟨c.capacity, c.priority_queue,
              c.id_to_transaction_state.set transaction_id st2⟩
            (TransactionPriorityId.mk st.priority transaction_id)

/-- A sanitized transaction, reduced to its account-lock footprint: the
writable and readonly account keys (`get_account_locks_unchecked`). -/
structure SanitizedTransaction (K : Type) where
  writable : List K
  readonly : List K
deriving DecidableEq

/-- Source: `SchedulerError` (scheduler_error.rs). -/
inductive SchedulerError where
  | DisconnectedSendChannel (chan : String)
  | DisconnectedReceiveChannel (chan : String)
  | DisconnectedRecvChannel (chan : String)
deriving DecidableEq

/-- Result of a crossbeam `try_recv` on a channel. -/
inductive TryRecvResult (α : Type) where
  | Ok (a : α)
  | Empty
  | Disconnected

/-- Modelled from the spec: `InFlightTracker` (in_flight_tracker.rs, not
in src/): per-thread in-flight transaction and cu counts, plus a map from
batch id to (num_transactions, total_cus, thread_id); batch ids count
down from `u64::MAX`. -/
structure InFlightTracker where
  num_in_flight_per_thread : List Nat
  cus_in_flight_per_thread : List Nat
  batches : List (Nat × Nat × Nat × Nat)
  next_batch_id : Nat

/-- Modelled from the spec: `InFlightTracker::track_batch` returns a fresh
batch id and adds the batch's counts to its thread. -/
def InFlightTracker.track_batch (t : InFlightTracker)
    (num_transactions total_cus thread_id : Nat) : Nat × InFlightTracker :=
  let id := t.next_batch_id
  (id, ⟨t.num_in_flight_per_thread.set thread_id
        (t.num_in_flight_per_thread.getD thread_id 0 + num_transactions),
    t.cus_in_flight_per_thread.set thread_id
        (t.cus_in_flight_per_thread.getD thread_id 0 + total_cus),
    (id, num_transactions, total_cus, thread_id) :: t.batches,
    t.next_batch_id - 1⟩)

/-- Modelled from the spec: `InFlightTracker::complete_batch` looks up the
batch, removes it, decrements its thread's counts, and returns the thread
id; panics (`Option.none`) on an unknown batch id. -/
def InFlightTracker.complete_batch (t : InFlightTracker) (batch_id : Nat) :
    Option (Nat × InFlightTracker) :=
  match t.batches.find? fun b => b.1 == batch_id with
  | Option.none => Option.none
  | some b =>
      let thread_id := b.2.2.2
      some (thread_id, ⟨t.num_in_flight_per_thread.set thread_id
            (t.num_in_flight_per_thread.getD thread_id 0 - b.2.1),
        t.cus_in_flight_per_thread.set thread_id
            (t.cus_in_flight_per_thread.getD thread_id 0 - b.2.2.1),
        t.batches.filter fun p => !(p.1 == batch_id),
        t.next_batch_id⟩)

/-- Source: `ConsumeWork` as destructured by `try_receive_completed`:
batch id, transaction ids, transactions, and max-age slots. -/
structure ConsumeWork (K : Type) where
  batch_id : Nat
  ids : List Nat
  transactions : List (SanitizedTransaction K)
  max_age_slots : List Nat

/-- Source: `FinishedConsumeWork`: the work plus the retryable indexes. -/
structure FinishedConsumeWork (K : Type) where
  work : ConsumeWork K
  retryable_indexes : List Nat

/-- The scheduler state relevant to completion handling: the account
locks and the in-flight tracker. -/
structure PrioGraphScheduler (K : Type) where
  account_locks : ThreadAwareAccountLocks K
  in_flight_tracker : InFlightTracker

/-- Source: `PrioGraphScheduler::complete_batch`: obtain the thread id
from the in-flight tracker, then release each transaction's write and
read account locks on that thread. -/
def PrioGraphScheduler.complete_batch {K : Type} [DecidableEq K]
    (s : PrioGraphScheduler K) (batch_id : Nat)
    (transactions : List (SanitizedTransaction K)) :
    Option (Nat × PrioGraphScheduler K) :=
  match s.in_flight_tracker.complete_batch batch_id with
  | Option.none => Option.none
  | some (thread_id, ift) =>
      match transactions.foldlM
          (fun locks tx => ThreadAwareAccountLocks.unlock_accounts locks
            tx.writable tx.readonly thread_id) s.account_locks with
      | Option.none => Option.none
      | some locks2 => some (thread_id, ⟨locks2, ift⟩)

/-- Source: the handler argument of `try_receive_completed` builds a
priority id for every id in the batch, unwrapping each container lookup
(`Option.none` = panic on a missing id). -/
def collect_priority_ids {K : Type}
    (container : TransactionStateContainer (SanitizedTransaction K))
    (ids : List Nat) : Option (List TransactionPriorityId) :=
  ids.mapM fun id => (container.id_to_transaction_state.get id).map
    fun st => TransactionPriorityId.mk st.priority id

/-- Source: the retryable walk of `try_receive_completed` (lines 277-295):
a peekable iterator over `retryable_indexes` is compared against the
enumeration index; on a match the transaction is retried and the iterator
advanced, otherwise the id is removed from the container. -/
def process_retryable {K : Type}
    (container : TransactionStateContainer (SanitizedTransaction K))
    (idx : Nat) (triples : List (Nat × SanitizedTransaction K × Nat))
    (retryable : List Nat) :
    Option (TransactionStateContainer (SanitizedTransaction K)) :=
  match triples with
  | [] => some container
  | (id, tx, slot) :: rest =>
      match retryable with
      | r :: rtl =>
          if r = idx then
            match container.retry_transaction id ⟨tx, slot⟩ with
            | Option.none => Option.none
            | some (_, c2) => process_retryable c2 (idx + 1) rest rtl
          else
            match container.remove_by_id id with
            | Option.none => Option.none
            | some c2 => process_retryable c2 (idx + 1) rest (r :: rtl)
      | [] =>
          match container.remove_by_id id with
          | Option.none => Option.none
          | some c2 => process_retryable c2 (idx + 1) rest []

/-- The spec's words for the same walk: an index in `retryable_indexes`
is retried (transitioned back to Unprocessed and re-inserted into the
queue), any other index is removed from the container map. -/
def process_retryable_spec {K : Type}
    (container : TransactionStateContainer (SanitizedTransaction K))
    (idx : Nat) (triples : List (Nat × SanitizedTransaction K × Nat))
    (retryable : List Nat) :
    Option (TransactionStateContainer (SanitizedTransaction K)) :=
  match triples with
  | [] => some container
  | (id, tx, slot) :: rest =>
      if idx ∈ retryable then
        match container.retry_transaction id ⟨tx, slot⟩ with
        | Option.none => Option.none
        | some (_, c2) => process_retryable_spec c2 (idx + 1) rest retryable
      else
        match container.remove_by_id id with
        | Option.none => Option.none
        | some c2 => process_retryable_spec c2 (idx + 1) rest retryable

/-- Source: `try_receive_completed`: on an Ok receive, complete the batch
(freeing locks), run the handler (which unwraps container lookups), walk
the retryable indexes, and return true; Empty yields false; a
disconnected channel yields `DisconnectedRecvChannel`. -/
def try_receive_completed {K : Type} [DecidableEq K]
    (s : PrioGraphScheduler K)
    (container : TransactionStateContainer (SanitizedTransaction K))
    (handler_present : Bool) (recv : TryRecvResult (FinishedConsumeWork K)) :
    Option (Except SchedulerError (Bool × PrioGraphScheduler K ×
      TransactionStateContainer (SanitizedTransaction K))) :=
  match recv with
  | .Empty => some (.ok (false, s, container))
  | .Disconnected =>
      some (.error (.DisconnectedRecvChannel "finished consume work"))
  | .Ok fin =>
      match PrioGraphScheduler.complete_batch s fin.work.batch_id
          fin.work.transactions with
      | Option.none => Option.none
      | some (_, s1) =>
          if handler_present &&
              (collect_priority_ids container fin.work.ids).isNone then
            Option.none
          else
            match process_retryable container 0
                (fin.work.ids.zip (fin.work.transactions.zip
                  fin.work.max_age_slots)) fin.retryable_indexes with
            | Option.none => Option.none
            | some c2 => some (.ok (true, s1, c2))

/-- Source: `Batches`: per-thread id, transaction and max-age-slot
batches plus compute-unit totals. -/
structure Batches (K : Type) where
  ids : List (List Nat)
  transactions : List (List (SanitizedTransaction K))
  max_age_slots : List (List Nat)
  total_cus : List Nat

/-- Source: `Batches::new`. -/
def Batches.new (K : Type) (num_threads : Nat) : Batches K :=
  ⟨List.replicate num_threads [], List.replicate num_threads [],
    List.replicate num_threads [], List.replicate num_threads 0⟩

/-- Source: the batch-append in `schedule` (lines 170-173). -/
def Batches.push {K : Type} (b : Batches K) (thread_id id : Nat)
    (tx : SanitizedTransaction K) (max_age_slot cu : Nat) : Batches K :=
  ⟨b.ids.set thread_id (b.ids.getD thread_id [] ++ [id]),
    b.transactions.set thread_id (b.transactions.getD thread_id [] ++ [tx]),
    b.max_age_slots.set thread_id
      (b.max_age_slots.getD thread_id [] ++ [max_age_slot]),
    b.total_cus.set thread_id (b.total_cus.getD thread_id 0 + cu)⟩

/-- Source: `Batches::take_batch`: hand out the thread's batch and reset
its slots. -/
def Batches.take_batch {K : Type} (b : Batches K) (thread_id : Nat) :
    (List Nat × List (SanitizedTransaction K) × List Nat × Nat) × Batches K :=
  ((b.ids.getD thread_id [], b.transactions.getD thread_id [],
      b.max_age_slots.getD thread_id [], b.total_cus.getD thread_id 0),
    ⟨b.ids.set thread_id [], b.transactions.set thread_id [],
      b.max_age_slots.set thread_id [], b.total_cus.set thread_id 0⟩)

/-- Source: `send_batch`: an empty batch sends nothing; otherwise take
the batch, track it in flight, and send it on the thread's `ConsumeWork`
channel — a closed channel yields
`DisconnectedSendChannel "consume work sender"`; on success the number of
transactions sent is returned.  The channel is modelled by the
`connected` predicate. -/
def send_batch {K : Type} (ift : InFlightTracker) (batches : Batches K)
    (thread_index : Nat) (connected : Nat → Bool) :
    Except SchedulerError (Nat × InFlightTracker × Batches K) :=
  if (batches.ids.getD thread_index []).isEmpty then .ok (0, ift, batches)
  else
    let taken := batches.take_batch thread_index
    let ids := taken.1.1
    let total_cus := taken.1.2.2.2
    let tracked := ift.track_batch ids.length total_cus thread_index
    if connected thread_index then .ok (ids.length, tracked.2, taken.2)
    else .error (.DisconnectedSendChannel "consume work sender")

/-- Source: `send_batches`: `(0..num_senders).map(send_batch).sum()` over
`Result` — the sum short-circuits at the first error. -/
def send_batches {K : Type} (ift : InFlightTracker) (batches : Batches K)
    (num_senders : Nat) (connected : Nat → Bool) :
    Except SchedulerError (Nat × InFlightTracker × Batches K) :=
  (List.range num_senders).foldlM
    (fun acc thread_index =>
      (send_batch acc.2.1 acc.2.2 thread_index connected).map
        fun r => (acc.1 + r.1, r.2))
    (0, ift, batches)

/-- One iteration outcome of `schedule`'s loop, abstracting the
prio-graph, container and lock decisions: `skip` covers the `continue`
branches (missing state, blocked, or failed `try_lock_accounts`); `sched`
is a successful `try_lock_accounts` yielding the chosen thread and the
transaction's data; `flush` is the end of one outer loop iteration, whose
`sent_scheduled_transactions += self.send_batches(&mut batches)?`
(line 182) ships every non-empty batch mid-pass. -/
inductive SchedEvent (K : Type) where
  | skip
  | sched (thread_id id : Nat) (tx : SanitizedTransaction K)
      (max_age_slot cu : Nat)
  | flush

/-- Source: the counting core of `schedule`'s loop (lines 82-212): each
scheduled transaction is appended to its thread's batch and counted in
`num_scheduled`; when a batch reaches `TARGET_NUM_TRANSACTIONS_PER_BATCH`
it is sent immediately (line 177); at the end of each outer iteration
`send_batches` ships all non-empty batches (line 182); sent transactions
accumulate in `sent`; a send error aborts the pass. -/
def scheduleEvents {K : Type} (num_senders TARGET : Nat)
    (connected : Nat → Bool)
    (events : List (SchedEvent K)) (num_scheduled sent : Nat)
    (ift : InFlightTracker) (batches : Batches K) :
    Except SchedulerError (Nat × Nat × InFlightTracker × Batches K) :=
  match events with
  | [] => .ok (num_scheduled, sent, ift, batches)
  | .skip :: rest =>
      scheduleEvents num_senders TARGET connected rest num_scheduled sent
        ift batches
  | .sched t id tx slot cu :: rest =>
      let b1 := batches.push t id tx slot cu
      if TARGET ≤ (b1.ids.getD t []).length then
        match send_batch ift b1 t connected with
        | .error e => .error e
        | .ok (m, ift2, b2) =>
            scheduleEvents num_senders TARGET connected rest
              (num_scheduled + 1) (sent + m) ift2 b2
      else
        scheduleEvents num_senders TARGET connected rest (num_scheduled + 1)
          sent ift b1
  | .flush :: rest =>
      match send_batches ift batches num_senders connected with
      | .error e => .error e
      | .ok (m, ift2, b2) =>
          scheduleEvents num_senders TARGET connected rest num_scheduled
            (sent + m) ift2 b2

/-- Source: the frame of `schedule` (lines 82-232): run the loop from
zero counters and fresh batches with its in-loop target-size sends and
per-iteration flushes, send all remaining batches (line 215), then the
closing `assert!(num_scheduled == sent_scheduled_transactions)` —
`Option.none` is the assertion panic — and return `Ok(num_scheduled)`. -/
def schedule {K : Type} (num_senders TARGET : Nat) (connected : Nat → Bool)
    (events : List (SchedEvent K)) (ift : InFlightTracker) :
    Option (Except SchedulerError Nat) :=
  match scheduleEvents num_senders TARGET connected events 0 0 ift
      (Batches.new K num_senders) with
  | .error e => some (.error e)
  | .ok (ns, sent, ift1, b1) =>
      match send_batches ift1 b1 num_senders connected with
      | .error e => some (.error e)
      | .ok (m, _, _) =>
          if ns = sent + m then some (.ok ns) else Option.none

/-- Total number of transaction ids currently buffered across all
threads' batches. -/
def totalIds {K : Type} (b : Batches K) : Nat := (b.ids.map List.length).sum

/-- A concrete in-flight tracker for witnesses. -/
def sIFT : InFlightTracker := ⟨[0], [0], [], 10⟩

/-- A concrete one-thread batch buffer holding one transaction. -/
def sBatches1 : Batches (Fin 1) := ⟨[[3]], [[⟨[], []⟩]], [[9]], [7]⟩

/-- A concrete transaction writing one account. -/
def sTx8 : SanitizedTransaction (Fin 1) := ⟨[0], []⟩

/-- A table write-locked by thread 0 on the only key. -/
def sLocked8 : ThreadAwareAccountLocks (Fin 1) :=
  { num_threads := 4, sequential_queue_limit := 2,
    write_locks := fun _ => some (0, 1),
    read_locks := fun _ => Option.none }

/-- An in-flight tracker holding batch 9 (1 transaction, thread 0). -/
def sIFT8 : InFlightTracker := ⟨[1], [0], [(9, 1, 0, 0)], 8⟩

/-- The scheduler state pairing `sLocked8` with `sIFT8`. -/
def sSched8 : PrioGraphScheduler (Fin 1) := ⟨sLocked8, sIFT8⟩

/-- A container with transaction 7 Pending (priority 5). -/
def sCont8 : TransactionStateContainer (SanitizedTransaction (Fin 1)) :=
  ⟨4, [], ⟨5, [(7, TransactionState.Pending ⟨5, 0⟩)], 8⟩⟩

/-- A finished batch 9 returning transaction 7, retryable. -/
def sFin8 : FinishedConsumeWork (Fin 1) := ⟨⟨9, [7], [sTx8], [11]⟩, [0]⟩

/-- A well-formed, completely unlocked table with the maximal
`num_threads = 64`. -/
def s64 : ThreadAwareAccountLocks (Fin 1) :=
  { num_threads := 64, sequential_queue_limit := 2,
    write_locks := fun _ => Option.none,
    read_locks := fun _ => Option.none }

-- DEFS_MARKER: further definitions are inserted above this line.

-- ## Theorems

namespace ThreadSet

theorem as_flag_lt {t : Nat} (ht : t < 64) : as_flag t = 2 ^ t := by
  unfold as_flag
  rw [Nat.mod_eq_of_lt ht]

theorem any_64_eq_none : any 64 = ThreadSet.none := rfl

theorem contains_testBit_mod (s : ThreadSet) (t : Nat) :
    s.contains t = s.mask.testBit (t % 64) := by
  simp only [contains, as_flag, Nat.and_two_pow]
  cases h : s.mask.testBit (t % 64) <;> simp [h, Nat.pow_pos]

theorem contains_eq_testBit (s : ThreadSet) (t : Nat) (ht : t < 64) :
    s.contains t = s.mask.testBit t := by
  rw [contains_testBit_mod, Nat.mod_eq_of_lt ht]

theorem contains_any (n t : Nat) (hn : n < 64) (ht : t < 64) :
    (any n).contains t = decide (t < n) := by
  rw [contains_eq_testBit _ _ ht]
  simp only [any, as_flag_lt hn]
  exact Nat.testBit_two_pow_sub_one n t

theorem contains_only (u t : Nat) (hu : u < 64) (ht : t < 64) :
    (only u).contains t = decide (t = u) := by
  rw [contains_eq_testBit _ _ ht]
  rcases eq_or_ne u t with h | h
  · subst h; simp [only, as_flag_lt hu, Nat.testBit_two_pow_self]
  · simp [only, as_flag_lt hu, Nat.testBit_two_pow_of_ne h, Ne.symm h]

theorem contains_insert (s : ThreadSet) (u t : Nat) (hu : u < 64)
    (ht : t < 64) :
    (s.insert u).contains t = (s.contains t || decide (t = u)) := by
  simp only [contains_eq_testBit _ _ ht, insert, Nat.testBit_or]
  rcases eq_or_ne u t with h | h
  · subst h; simp [as_flag_lt hu, Nat.testBit_two_pow_self]
  · simp [as_flag_lt hu, Nat.testBit_two_pow_of_ne h, Ne.symm h]

theorem testBit_u64_complement (m t : Nat) (hm : m < 64) (ht : t < 64) :
    (U64_MAX ^^^ as_flag m).testBit t = !decide (t = m) := by
  rw [Nat.testBit_xor]
  have h1 : U64_MAX = 2 ^ 64 - 1 := by norm_num [U64_MAX]
  rw [h1, Nat.testBit_two_pow_sub_one]
  rcases eq_or_ne m t with h | h
  · subst h; simp [ht, as_flag_lt hm, Nat.testBit_two_pow_self]
  · simp [ht, as_flag_lt hm, Nat.testBit_two_pow_of_ne h, Ne.symm h]

theorem contains_remove (s : ThreadSet) (u t : Nat) (hu : u < 64)
    (ht : t < 64) :
    (s.remove u).contains t = (s.contains t && !decide (t = u)) := by
  simp [contains_eq_testBit _ _ ht, remove, Nat.testBit_and,
    testBit_u64_complement _ _ hu ht]

theorem contains_and (a b : ThreadSet) (t : Nat) :
    (ThreadSet.and a b).contains t = (a.contains t && b.contains t) := by
  simp [contains_testBit_mod, ThreadSet.and, Nat.testBit_and]

theorem mask_eq_zero_iff (s : ThreadSet) (hs : s.mask < 2 ^ 64) :
    s.mask = 0 ↔ ∀ t < 64, s.contains t = false := by
  constructor
  · intro h t ht
    simp [contains_eq_testBit _ _ ht, h]
  · intro h
    refine Nat.eq_of_testBit_eq fun i => ?_
    rcases lt_or_le i 64 with hi | hi
    · have := h i hi
      rw [contains_eq_testBit _ _ hi] at this
      simp [this]
    · simp [Nat.testBit_lt_two_pow
        (lt_of_lt_of_le hs (Nat.pow_le_pow_right (by norm_num) hi))]

theorem num_threads_eq_card (s : ThreadSet) :
    s.num_threads = ((Finset.range 64).filter fun t => s.mask.testBit t).card := by
  simp [num_threads, MAX_THREADS, List.countP_eq_length_filter, Finset.filter,
    Finset.card, Finset.range, Multiset.range, Multiset.filter_coe]

theorem num_threads_eq_one_iff (s : ThreadSet) (hs : s.mask < 2 ^ 64) :
    s.num_threads = 1 ↔ ∃ u, u < 64 ∧ s.mask = 2 ^ u := by
  rw [num_threads_eq_card]
  constructor
  · intro h
    rw [Finset.card_eq_one] at h
    obtain ⟨u, hu⟩ := h
    have hu64 : u < 64 := by
      have : u ∈ (Finset.range 64).filter fun t => s.mask.testBit t := by
        rw [hu]; exact Finset.mem_singleton_self u
      exact Finset.mem_range.mp (Finset.mem_of_mem_filter u this)
    refine ⟨u, hu64, Nat.eq_of_testBit_eq fun i => ?_⟩
    rcases lt_or_le i 64 with hi | hi
    · have hmem : s.mask.testBit i ↔ i = u := by
        constructor
        · intro hbit
          have : i ∈ (Finset.range 64).filter fun t => s.mask.testBit t :=
            Finset.mem_filter.mpr ⟨Finset.mem_range.mpr hi, hbit⟩
          rw [hu] at this
          exact Finset.mem_singleton.mp this
        · intro hiu
          subst hiu
          have : i ∈ ({i} : Finset Nat) := Finset.mem_singleton_self i
          rw [← hu] at this
          exact (Finset.mem_filter.mp this).2
      rcases eq_or_ne i u with hiu | hiu
      · subst hiu
        simp [hmem.mpr rfl, Nat.testBit_two_pow_self]
      · have : s.mask.testBit i = false := by
          cases hb : s.mask.testBit i
          · rfl
          · exact absurd (hmem.mp hb) hiu
        simp [this, Nat.testBit_two_pow_of_ne (Ne.symm hiu)]
    · have h1 : s.mask.testBit i = false :=
        Nat.testBit_lt_two_pow (lt_of_lt_of_le hs (Nat.pow_le_pow_right (by norm_num) hi))
      have h2 : (2 ^ u).testBit i = false :=
        Nat.testBit_two_pow_of_ne (by omega)
      rw [h1, h2]
  · rintro ⟨u, hu64, hmask⟩
    rw [hmask]
    have : ((Finset.range 64).filter fun t => (2 ^ u : Nat).testBit t) = {u} := by
      ext i
      simp only [Finset.mem_filter, Finset.mem_range, Finset.mem_singleton]
      constructor
      · rintro ⟨_, hbit⟩
        by_contra hne
        rw [Nat.testBit_two_pow_of_ne (Ne.symm hne)] at hbit
        exact Bool.false_ne_true hbit
      · rintro rfl
        exact ⟨hu64, Nat.testBit_two_pow_self⟩
    rw [this, Finset.card_singleton]

theorem trailingZeros_two_pow : ∀ u < 64, trailingZeros (2 ^ u) = u := by decide

theorem only_one_contained_eq_some_iff (s : ThreadSet) (hs : s.mask < 2 ^ 64)
    (u : Nat) : s.only_one_contained = some u ↔ u < 64 ∧ s.mask = 2 ^ u := by
  constructor
  · intro h
    unfold only_one_contained at h
    split at h
    case isTrue h1 =>
      obtain ⟨v, hv64, hvmask⟩ := (num_threads_eq_one_iff s hs).mp h1
      rw [hvmask, trailingZeros_two_pow v hv64] at h
      obtain rfl : v = u := by injection h
      exact ⟨hv64, hvmask⟩
    case isFalse => exact absurd h (by simp)
  · rintro ⟨hu64, hmask⟩
    have h1 : s.num_threads = 1 := (num_threads_eq_one_iff s hs).mpr ⟨u, hu64, hmask⟩
    unfold only_one_contained
    rw [if_pos h1, hmask, trailingZeros_two_pow u hu64]

theorem eq_two_pow_iff_members (s : ThreadSet) (hs : s.mask < 2 ^ 64) (u : Nat)
    (hu : u < 64) : s.mask = 2 ^ u ↔ ∀ i < 64, s.contains i = decide (i = u) := by
  constructor
  · intro h i hi
    rw [contains_eq_testBit _ _ hi, h]
    rcases eq_or_ne i u with hiu | hiu
    · subst hiu; simp [Nat.testBit_two_pow_self]
    · simp [Nat.testBit_two_pow_of_ne (Ne.symm hiu), hiu]
  · intro h
    refine Nat.eq_of_testBit_eq fun i => ?_
    rcases lt_or_le i 64 with hi | hi
    · have := h i hi
      rw [contains_eq_testBit _ _ hi] at this
      rw [this]
      rcases eq_or_ne i u with hiu | hiu
      · subst hiu; simp [Nat.testBit_two_pow_self]
      · simp [Nat.testBit_two_pow_of_ne (Ne.symm hiu), hiu]
    · rw [Nat.testBit_lt_two_pow
        (lt_of_lt_of_le hs (Nat.pow_le_pow_right (by norm_num) hi)),
        Nat.testBit_two_pow_of_ne (by omega)]

theorem is_empty_iff (s : ThreadSet) (hs : s.mask < 2 ^ 64) :
    s.is_empty = true ↔ ∀ i < 64, s.contains i = false := by
  unfold is_empty
  rw [← mask_eq_zero_iff s hs]
  constructor
  · intro h
    have : s = ThreadSet.none := of_decide_eq_true h
    rw [this]; rfl
  · intro h
    have : s = ThreadSet.none := by
      cases s with
      | mk m => simpa [ThreadSet.none] using h
    exact decide_eq_true this

theorem members_decide_iff (s : ThreadSet) (u : Nat) :
    (∀ i, i < 64 → (s.contains i = true ↔ i = u)) ↔
      (∀ i, i < 64 → s.contains i = decide (i = u)) := by
  constructor
  · intro h i hi
    have := h i hi
    by_cases hiu : i = u <;> simp [hiu] at this ⊢ <;> simp [this]
  · intro h i hi
    rw [h i hi]
    simp

end ThreadSet

namespace ThreadSet

theorem only_one_contained_only (t : Nat) (ht : t < 64) :
    (ThreadSet.only t).only_one_contained = some t := by
  have hm : (ThreadSet.only t).mask < 2 ^ 64 := by
    simpa [only, as_flag_lt ht] using Nat.pow_lt_pow_right (by norm_num) ht
  exact (only_one_contained_eq_some_iff _ hm t).mpr ⟨ht, by simp [only, as_flag_lt ht]⟩

theorem mem_threads_iter (ts : ThreadSet) (t : Nat) :
    t ∈ ts.threads_iter ↔ t < 64 ∧ ts.contains t = true := by
  simp [threads_iter, MAX_THREADS, List.mem_filter]

theorem fold_remove_contains (l : List Nat) (init : ThreadSet) (p : Nat → Prop)
    [DecidablePred p] (t : Nat) (ht : t < 64) (hl : ∀ x ∈ l, x < 64) :
    (l.foldl (fun acc x => if p x then acc.remove x else acc) init).contains t
      = (init.contains t && !(decide (t ∈ l) && decide (p t))) := by
  induction l generalizing init with
  | nil => simp
  | cons x xs ih =>
      have hx64 : x < 64 := hl x (List.mem_cons_self x xs)
      have hxs : ∀ y ∈ xs, y < 64 := fun y hy => hl y (List.mem_cons_of_mem x hy)
      simp only [List.foldl_cons]
      rw [ih _ hxs]
      by_cases hpx : p x
      · rw [if_pos hpx]
        rcases eq_or_ne t x with rfl | hne
        · rw [contains_remove _ _ _ hx64 ht]
          simp [hpx]
        · rw [contains_remove _ _ _ hx64 ht]
          simp [hne, hpx]
      · rw [if_neg hpx]
        rcases eq_or_ne t x with rfl | hne
        · simp [hpx]
        · simp [hne]

end ThreadSet

namespace ThreadAwareAccountLocks

variable {K : Type} [DecidableEq K]

theorem wfReadEntry_fields {limit nt : Nat} {ts : ThreadSet} {cnts : List Nat}
    (h : wfReadEntry limit nt (some (ts, cnts)) = true) :
    cnts.length = 64 ∧ ts.mask ≠ 0 ∧ ts.mask < 2 ^ 64 ∧
    ∀ t, t < 64 →
      (ts.contains t = true ↔ cnts.getD t 0 ≠ 0) ∧
      cnts.getD t 0 ≤ limit ∧ (ts.contains t = true → t < nt) := by
  unfold wfReadEntry at h
  simp only [Bool.and_eq_true, decide_eq_true_eq, List.all_eq_true,
    List.mem_range] at h
  obtain ⟨⟨⟨hlen, hmask0⟩, hmasklt⟩, hall⟩ := h
  refine ⟨hlen, hmask0, hmasklt, fun t htlt => ?_⟩
  obtain ⟨⟨hbeq, hle⟩, hmem⟩ := hall t htlt
  refine ⟨?_, hle, ?_⟩
  · rw [beq_iff_eq] at hbeq
    constructor
    · intro hc; rw [hc] at hbeq; exact of_decide_eq_true hbeq.symm
    · intro hc
      rw [show decide (cnts.getD t 0 ≠ 0) = true from decide_eq_true hc] at hbeq
      exact hbeq
  · intro hc
    rcases Bool.or_eq_true _ _ |>.mp hmem with hnot | hlt
    · rw [hc] at hnot; exact absurd hnot (by simp)
    · exact of_decide_eq_true hlt

theorem wfWriteEntry_fields {limit nt t c : Nat}
    (h : wfWriteEntry limit nt (some (t, c)) = true) :
    t < nt ∧ 1 ≤ c ∧ c ≤ limit := by
  unfold wfWriteEntry at h
  simp only [Bool.and_eq_true, decide_eq_true_eq] at h
  exact ⟨h.1.1, h.1.2, h.2⟩

theorem wfMixedEntry_fields {limit wt wc : Nat} {ts : ThreadSet} {cnts : List Nat}
    (h : wfMixedEntry limit (some (wt, wc)) (some (ts, cnts)) = true) :
    ts = ThreadSet.only wt ∧ wc + cnts.getD wt 0 ≤ limit := by
  unfold wfMixedEntry at h
  simp only [Bool.and_eq_true, decide_eq_true_eq] at h
  exact h

theorem read_schedulable_unlocked (s : ThreadAwareAccountLocks K) (k : K)
    (hw : s.write_locks k = Option.none) (hr : s.read_locks k = Option.none) :
    read_schedulable_threads s k = some (ThreadSet.any s.num_threads) := by
  simp [read_schedulable_threads, schedulable_threads_with_read_only_handler, hw, hr]

theorem write_schedulable_unlocked (s : ThreadAwareAccountLocks K) (k : K)
    (hw : s.write_locks k = Option.none) (hr : s.read_locks k = Option.none) :
    write_schedulable_threads s k = some (ThreadSet.any s.num_threads) := by
  simp [write_schedulable_threads, schedulable_threads_with_read_only_handler, hw, hr]

theorem read_schedulable_read_only (s : ThreadAwareAccountLocks K) (k : K)
    (ts : ThreadSet) (cnts : List Nat)
    (hw : s.write_locks k = Option.none) (hr : s.read_locks k = some (ts, cnts))
    (hnt : s.num_threads < 64)
    (hlim : 0 < s.sequential_queue_limit)
    (hiff : ∀ t, t < 64 → (ts.contains t = true ↔ cnts.getD t 0 ≠ 0))
    (hle : ∀ t, t < 64 → cnts.getD t 0 ≤ s.sequential_queue_limit) :
    ∃ M, read_schedulable_threads s k = some M ∧
      ∀ t, t < 64 → (M.contains t = true ↔
        (t < s.num_threads ∧ cnts.getD t 0 < s.sequential_queue_limit)) := by
  refine ⟨ts.threads_iter.foldl
    (fun schedulable thread_id =>
      if cnts.getD thread_id 0 = s.sequential_queue_limit then
        schedulable.remove thread_id
      else schedulable)
    (ThreadSet.any s.num_threads), ?_, ?_⟩
  · simp only [read_schedulable_threads,
      schedulable_threads_with_read_only_handler, hw, hr]
  intro t ht
  rw [ThreadSet.fold_remove_contains _ _ _ t ht
    (fun x hx => ((ThreadSet.mem_threads_iter ts x).mp hx).1)]
  have hmem : decide (t ∈ ts.threads_iter) = ts.contains t := by
    rcases hc : ts.contains t with _ | _
    · simp [ThreadSet.mem_threads_iter, hc]
    · simp [ThreadSet.mem_threads_iter, hc, ht]
  rw [hmem, ThreadSet.contains_any _ _ hnt ht]
  rcases hc : ts.contains t with _ | _
  · have h0 : cnts.getD t 0 = 0 := by
      by_contra hne
      have hcontr := (hiff t ht).mpr hne
      rw [hc] at hcontr
      exact Bool.false_ne_true hcontr
    simp only [hc, Bool.false_and, Bool.not_false, Bool.and_true,
      decide_eq_true_eq]
    constructor
    · intro h1; exact ⟨h1, by omega⟩
    · intro h1; exact h1.1
  · have hne0 : cnts.getD t 0 ≠ 0 := (hiff t ht).mp hc
    have hcle := hle t ht
    simp only [hc, Bool.true_and, Bool.and_eq_true, Bool.not_eq_true',
      decide_eq_true_eq, decide_eq_false_iff_not]
    constructor
    · rintro ⟨h1, h2⟩; exact ⟨h1, by omega⟩
    · rintro ⟨h1, h2⟩; exact ⟨h1, by omega⟩

theorem schedulable_write_locked (s : ThreadAwareAccountLocks K) (k : K)
    (wt wc : Nat) (hw : s.write_locks k = some (wt, wc)) (hWf : Wf s) :
    read_schedulable_threads s k =
      some (if wc + read_count s k wt < s.sequential_queue_limit then
              ThreadSet.only wt else ThreadSet.none) ∧
    write_schedulable_threads s k =
      some (if wc + read_count s k wt < s.sequential_queue_limit then
              ThreadSet.only wt else ThreadSet.none) := by
  obtain ⟨hnt0, hntle, hlim, hwf, hrf, hmix⟩ := hWf
  have hwfields := wfWriteEntry_fields (hw ▸ hwf k)
  cases hr : s.read_locks k with
  | none =>
      have hrc : read_count s k wt = 0 := by simp [read_count, hr]
      have hcle : wc ≤ s.sequential_queue_limit := hwfields.2.2
      have hif : (if wc = s.sequential_queue_limit then ThreadSet.none
            else ThreadSet.only wt)
          = (if wc + read_count s k wt < s.sequential_queue_limit then
              ThreadSet.only wt else ThreadSet.none) := by
        rw [hrc]
        split_ifs with ha hb hb <;> first | rfl | omega
      constructor
      · simp only [read_schedulable_threads,
          schedulable_threads_with_read_only_handler, hw, hr, hif]
      · simp only [write_schedulable_threads,
          schedulable_threads_with_read_only_handler, hw, hr, hif]
  | some e =>
      obtain ⟨ts, cnts⟩ := e
      have hmfields := wfMixedEntry_fields (by
        have := hmix k
        rw [hw, hr] at this
        exact this)
      obtain ⟨hts, hsum⟩ := hmfields
      have hwt64 : wt < 64 := lt_of_lt_of_le hwfields.1 hntle
      have hooc : ts.only_one_contained = some wt := by
        rw [hts]
        exact ThreadSet.only_one_contained_only wt hwt64
      have hrc : read_count s k wt = cnts.getD wt 0 := by simp [read_count, hr]
      have hif : (if wc + cnts.getD wt 0 = s.sequential_queue_limit then
              ThreadSet.none else ThreadSet.only wt)
          = (if wc + read_count s k wt < s.sequential_queue_limit then
              ThreadSet.only wt else ThreadSet.none) := by
        rw [hrc]
        split_ifs with ha hb hb <;> first | rfl | omega
      constructor
      · simp only [read_schedulable_threads,
          schedulable_threads_with_read_only_handler, hw, hr, hooc,
          eq_self_iff_true, if_true, hif]
      · simp only [write_schedulable_threads,
          schedulable_threads_with_read_only_handler, hw, hr, hooc,
          eq_self_iff_true, if_true, hif]

theorem write_schedulable_read_only_single (s : ThreadAwareAccountLocks K)
    (k : K) (ts : ThreadSet) (cnts : List Nat) (u : Nat)
    (hw : s.write_locks k = Option.none) (hr : s.read_locks k = some (ts, cnts))
    (hmask : ts.mask < 2 ^ 64) (hu : u < 64)
    (hsing : ∀ i, i < 64 → (ts.contains i = true ↔ i = u)) :
    write_schedulable_threads s k =
      some (if cnts.getD u 0 < s.sequential_queue_limit then
              ThreadSet.only u else ThreadSet.none) := by
  have hooc : ts.only_one_contained = some u := by
    rw [ThreadSet.only_one_contained_eq_some_iff ts hmask u]
    exact ⟨hu, (ThreadSet.eq_two_pow_iff_members ts hmask u hu).mpr
      ((ThreadSet.members_decide_iff ts u).mp hsing)⟩
  simp only [write_schedulable_threads,
    schedulable_threads_with_read_only_handler, hw, hr, hooc]

theorem write_schedulable_read_only_multi (s : ThreadAwareAccountLocks K)
    (k : K) (ts : ThreadSet) (cnts : List Nat) (u v : Nat)
    (hw : s.write_locks k = Option.none) (hr : s.read_locks k = some (ts, cnts))
    (hmask : ts.mask < 2 ^ 64) (hu64 : u < 64) (hv64 : v < 64) (huv : u ≠ v)
    (hcu : ts.contains u = true) (hcv : ts.contains v = true) :
    write_schedulable_threads s k = some ThreadSet.none := by
  have hooc : ts.only_one_contained = Option.none := by
    cases hc : ts.only_one_contained with
    | none => rfl
    | some w =>
        obtain ⟨hw64, hmw⟩ := (ThreadSet.only_one_contained_eq_some_iff ts hmask w).mp hc
        have hmem := (ThreadSet.eq_two_pow_iff_members ts hmask w hw64).mp hmw
        have h1 : u = w := by
          have := hmem u hu64
          rw [hcu] at this
          exact of_decide_eq_true this.symm
        have h2 : v = w := by
          have := hmem v hv64
          rw [hcv] at this
          exact of_decide_eq_true this.symm
        exact absurd (h1.trans h2.symm) huv
  simp [write_schedulable_threads,
    schedulable_threads_with_read_only_handler, hw, hr, hooc]

theorem handler_isSome (s : ThreadAwareAccountLocks K) (k : K) (hWf : Wf s)
    (h : ThreadSet → List Nat → ThreadSet) :
    ∃ M, schedulable_threads_with_read_only_handler s k h = some M := by
  obtain ⟨hnt0, hntle, hlim, hwf, hrf, hmix⟩ := hWf
  unfold schedulable_threads_with_read_only_handler
  split
  · exact ⟨_, rfl⟩
  · exact ⟨_, rfl⟩
  · exact ⟨_, rfl⟩
  · rename_i wt wc ts cnts hw hr
    have hmfields := wfMixedEntry_fields (by
      have hm := hmix k
      rw [hw, hr] at hm
      exact hm)
    have hwfields := wfWriteEntry_fields (hw ▸ hwf k)
    have hooc : ts.only_one_contained = some wt := by
      rw [hmfields.1]
      exact ThreadSet.only_one_contained_only wt
        (lt_of_lt_of_le hwfields.1 hntle)
    rw [hooc, if_pos rfl]
    exact ⟨_, rfl⟩

theorem read_schedulable_isSome (s : ThreadAwareAccountLocks K) (k : K)
    (hWf : Wf s) : ∃ M, read_schedulable_threads s k = some M :=
  handler_isSome s k hWf _

theorem write_schedulable_isSome (s : ThreadAwareAccountLocks K) (k : K)
    (hWf : Wf s) : ∃ M, write_schedulable_threads s k = some M :=
  handler_isSome s k hWf _

theorem foldlM_and_characterization (f : K → Option ThreadSet) (l : List K)
    (init : ThreadSet) (hf : ∀ k ∈ l, ∃ M, f k = some M) :
    ∃ A, l.foldlM (fun acc k => (f k).map fun m => ThreadSet.and acc m) init
          = some A ∧
      ∀ t, A.contains t =
        (init.contains t && l.all fun k => ((f k).getD ThreadSet.none).contains t) := by
  induction l generalizing init with
  | nil => exact ⟨init, rfl, by simp⟩
  | cons k ks ih =>
      obtain ⟨M, hM⟩ := hf k (List.mem_cons_self k ks)
      obtain ⟨A, hA, hAc⟩ := ih (ThreadSet.and init M)
        (fun k' hk' => hf k' (List.mem_cons_of_mem k hk'))
      refine ⟨A, ?_, ?_⟩
      · rw [List.foldlM_cons, hM]
        simpa using hA
      · intro t
        rw [hAc t, ThreadSet.contains_and]
        simp [hM, Bool.and_assoc]

theorem accounts_schedulable_characterization (s : ThreadAwareAccountLocks K)
    (hWf : Wf s) (hnt : s.num_threads < 64) (ws rs : List K) :
    ∃ A, accounts_schedulable_threads s ws rs = some A ∧
      ∀ t, t < 64 → (A.contains t = true ↔
        (t < s.num_threads ∧
         (∀ k ∈ ws, ∀ M, write_schedulable_threads s k = some M →
            M.contains t = true) ∧
         (∀ k ∈ rs, ∀ M, read_schedulable_threads s k = some M →
            M.contains t = true))) := by
  obtain ⟨A1, hA1, hA1c⟩ := foldlM_and_characterization
    (fun k => write_schedulable_threads s k) ws (ThreadSet.any s.num_threads)
    (fun k _ => write_schedulable_isSome s k hWf)
  obtain ⟨A2, hA2, hA2c⟩ := foldlM_and_characterization
    (fun k => read_schedulable_threads s k) rs A1
    (fun k _ => read_schedulable_isSome s k hWf)
  refine ⟨A2, ?_, ?_⟩
  · rw [accounts_schedulable_threads, hA1]
    simpa using hA2
  · intro t ht
    rw [hA2c t, hA1c t, ThreadSet.contains_any _ _ hnt ht]
    simp only [Bool.and_eq_true, List.all_eq_true, decide_eq_true_eq]
    constructor
    · rintro ⟨⟨htnt, hws⟩, hrs⟩
      refine ⟨htnt, ?_, ?_⟩
      · intro k hk M hM
        have := hws k hk
        rw [hM] at this
        exact this
      · intro k hk M hM
        have := hrs k hk
        rw [hM] at this
        exact this
    · rintro ⟨htnt, hws, hrs⟩
      refine ⟨⟨htnt, ?_⟩, ?_⟩
      · intro k hk
        obtain ⟨M, hM⟩ := write_schedulable_isSome s k hWf
        rw [hM]
        exact hws k hk M hM
      · intro k hk
        obtain ⟨M, hM⟩ := read_schedulable_isSome s k hWf
        rw [hM]
        exact hrs k hk M hM

theorem accounts_schedulable_isSome (s : ThreadAwareAccountLocks K)
    (hWf : Wf s) (ws rs : List K) :
    ∃ S, accounts_schedulable_threads s ws rs = some S := by
  obtain ⟨A1, hA1, _⟩ := foldlM_and_characterization
    (fun k => write_schedulable_threads s k) ws (ThreadSet.any s.num_threads)
    (fun k _ => write_schedulable_isSome s k hWf)
  obtain ⟨A2, hA2, _⟩ := foldlM_and_characterization
    (fun k => read_schedulable_threads s k) rs A1
    (fun k _ => read_schedulable_isSome s k hWf)
  refine ⟨A2, ?_⟩
  rw [accounts_schedulable_threads, hA1]
  simpa using hA2

end ThreadAwareAccountLocks

namespace ThreadSet

theorem contains_none (t : Nat) : ThreadSet.none.contains t = false := by
  simp [contains, ThreadSet.none]

theorem eq_only_of_mask (ts : ThreadSet) (u : Nat) (hu : u < 64)
    (h : ts.mask = 2 ^ u) : ts = ThreadSet.only u := by
  cases ts with
  | mk m => simpa [only, as_flag_lt hu] using h

end ThreadSet

namespace ThreadSet

theorem insert_self_of_contains {ts : ThreadSet} {t : Nat} (ht : t < 64)
    (h : ts.contains t = true) : ts.insert t = ts := by
  cases ts with
  | mk m =>
      rw [contains_eq_testBit _ _ ht] at h
      simp only [insert]
      congr 1
      refine Nat.eq_of_testBit_eq fun i => ?_
      rw [Nat.testBit_or]
      rcases eq_or_ne i t with rfl | hne
      · simp [as_flag_lt ht, Nat.testBit_two_pow_self, h]
      · simp [as_flag_lt ht, Nat.testBit_two_pow_of_ne (Ne.symm hne)]

theorem insert_remove_cancel {ts : ThreadSet} {t : Nat}
    (hm : ts.mask < 2 ^ 64) (ht : t < 64) (h : ts.contains t = false) :
    (ts.insert t).remove t = ts := by
  cases ts with
  | mk m =>
      rw [contains_eq_testBit _ _ ht] at h
      simp only [insert, remove]
      congr 1
      refine Nat.eq_of_testBit_eq fun i => ?_
      rw [Nat.testBit_and, Nat.testBit_or]
      rcases lt_or_le i 64 with hi | hi
      · rw [testBit_u64_complement _ _ ht hi]
        rcases eq_or_ne i t with rfl | hne
        · simp [h]
        · simp [as_flag_lt ht, Nat.testBit_two_pow_of_ne (Ne.symm hne), hne]
      · have h1 : Nat.testBit m i = false :=
          Nat.testBit_lt_two_pow
            (lt_of_lt_of_le hm (Nat.pow_le_pow_right (by norm_num) hi))
        have h2 : Nat.testBit (as_flag t) i = false := by
          simp [as_flag_lt ht, Nat.testBit_two_pow_of_ne (by omega : t ≠ i)]
        have h3 : Nat.testBit U64_MAX i = false := by
          have : U64_MAX < 2 ^ i := by
            calc U64_MAX < 2 ^ 64 := by norm_num [U64_MAX]
            _ ≤ 2 ^ i := Nat.pow_le_pow_right (by norm_num) hi
          exact Nat.testBit_lt_two_pow this
        rw [Nat.testBit_xor]
        simp [h1, h2, h3]

theorem remove_only_self {t : Nat} (ht : t < 64) :
    (ThreadSet.only t).remove t = ThreadSet.none := by
  simp only [only, remove, ThreadSet.none]
  congr 1
  refine Nat.eq_of_testBit_eq fun i => ?_
  rw [Nat.testBit_and]
  rcases lt_or_le i 64 with hi | hi
  · rw [testBit_u64_complement _ _ ht hi]
    rcases eq_or_ne i t with rfl | hne
    · simp
    · simp [as_flag_lt ht, Nat.testBit_two_pow_of_ne (Ne.symm hne)]
  · have h2 : Nat.testBit (as_flag t) i = false := by
      simp [as_flag_lt ht, Nat.testBit_two_pow_of_ne (by omega : t ≠ i)]
    simp [h2]

end ThreadSet

theorem mapInsert_self {K V : Type} [DecidableEq K] (m : K → Option V)
    (k : K) (v : V) : mapInsert m k v k = some v := by
  simp [mapInsert]

theorem mapInsert_ne {K V : Type} [DecidableEq K] (m : K → Option V)
    (k : K) (v : V) (k' : K) (h : k' ≠ k) : mapInsert m k v k' = m k' := by
  simp [mapInsert, h]

theorem mapRemove_self {K V : Type} [DecidableEq K] (m : K → Option V)
    (k : K) : mapRemove m k k = Option.none := by
  simp [mapRemove]

theorem mapRemove_ne {K V : Type} [DecidableEq K] (m : K → Option V)
    (k : K) (k' : K) (h : k' ≠ k) : mapRemove m k k' = m k' := by
  simp [mapRemove, h]

theorem mapInsert_cancel {K V : Type} [DecidableEq K] {m : K → Option V}
    {k : K} {v : V} (w : V) (h : m k = some v) :
    mapInsert (mapInsert m k w) k v = m := by
  funext k'
  by_cases hk : k' = k
  · subst hk
    rw [mapInsert_self, h]
  · rw [mapInsert_ne _ _ _ _ hk, mapInsert_ne _ _ _ _ hk]

theorem mapRemove_insert_cancel {K V : Type} [DecidableEq K] {m : K → Option V}
    {k : K} (w : V) (h : m k = Option.none) :
    mapRemove (mapInsert m k w) k = m := by
  funext k'
  by_cases hk : k' = k
  · subst hk
    rw [mapRemove_self, h]
  · rw [mapRemove_ne _ _ _ hk, mapInsert_ne _ _ _ _ hk]

theorem getD_set_self (l : List Nat) (i v : Nat) (h : i < l.length) :
    (l.set i v).getD i 0 = v := by
  induction l generalizing i with
  | nil => simp at h
  | cons x xs ih =>
      cases i with
      | zero => rfl
      | succ j =>
          simp only [List.set_cons_succ, List.getD_cons_succ]
          exact ih j (by simpa using h)

theorem set_getD_self (l : List Nat) (i : Nat) (h : i < l.length) :
    l.set i (l.getD i 0) = l := by
  induction l generalizing i with
  | nil => simp at h
  | cons x xs ih =>
      cases i with
      | zero => rfl
      | succ j =>
          simp only [List.set_cons_succ, List.getD_cons_succ]
          rw [ih j (by simpa using h)]

namespace ThreadAwareAccountLocks

variable {K : Type} [DecidableEq K]

theorem write_lock_account_succeeds (s : ThreadAwareAccountLocks K) (k : K)
    (t : Nat)
    (hw : ∀ t' c, s.write_locks k = some (t', c) →
      t' = t ∧ c + 1 ≤ s.sequential_queue_limit)
    (hr : ∀ ts cnts, s.read_locks k = some (ts, cnts) →
      ts = ThreadSet.only t) :
    ∃ s', write_lock_account s k t = some s' ∧
      s'.num_threads = s.num_threads ∧
      s'.sequential_queue_limit = s.sequential_queue_limit ∧
      s'.read_locks = s.read_locks ∧
      (∀ k', k' ≠ k → s'.write_locks k' = s.write_locks k') ∧
      (∃ c', s'.write_locks k = some (t, c')) := by
  have hcheck : ∀ s₀ : ThreadAwareAccountLocks K,
      write_lock_check_read s k t s₀ = some s₀ := by
    intro s₀
    unfold write_lock_check_read
    cases hrr : s.read_locks k with
    | none => rfl
    | some e =>
        obtain ⟨ts, cnts⟩ := e
        have hts := hr ts cnts hrr
        subst hts
        simp
  cases hww : s.write_locks k with
  | none =>
      refine ⟨{ s with write_locks := mapInsert s.write_locks k (t, 1) },
        ?_, rfl, rfl, rfl, ?_, ⟨1, ?_⟩⟩
      · unfold write_lock_account
        rw [hww]
        exact hcheck _
      · intro k' hk'
        simp [mapInsert, hk']
      · simp [mapInsert]
  | some p =>
      obtain ⟨t', c⟩ := p
      obtain ⟨rfl, hcle⟩ := hw t' c hww
      refine ⟨{ s with write_locks := mapInsert s.write_locks k (t', c + 1) },
        ?_, rfl, rfl, rfl, ?_, ⟨c + 1, ?_⟩⟩
      · unfold write_lock_account
        rw [hww]
        simp only [hcle, if_pos rfl, if_true]
        exact hcheck _
      · intro k' hk'
        simp [mapInsert, hk']
      · simp [mapInsert]

theorem read_lock_account_succeeds (s : ThreadAwareAccountLocks K) (k : K)
    (t : Nat) (hw : ∀ t' c, s.write_locks k = some (t', c) → t' = t) :
    ∃ s', read_lock_account s k t = some s' ∧
      s'.num_threads = s.num_threads ∧
      s'.sequential_queue_limit = s.sequential_queue_limit ∧
      s'.write_locks = s.write_locks ∧
      (∀ k', k' ≠ k → s'.read_locks k' = s.read_locks k') := by
  cases hrr : s.read_locks k with
  | none =>
      refine ⟨ThreadAwareAccountLocks.mk s.num_threads s.sequential_queue_limit
        s.write_locks
        (mapInsert s.read_locks k
          (ThreadSet.only t, (List.replicate MAX_THREADS 0).set t 1)),
        ?_, rfl, rfl, rfl, ?_⟩
      · cases hww : s.write_locks k with
        | none =>
            unfold read_lock_account
            rw [hrr, hww]
        | some p =>
            obtain ⟨t', c⟩ := p
            obtain rfl := hw t' c hww
            unfold read_lock_account
            rw [hrr, hww]
            exact if_pos rfl
      · intro k' hk'
        simp [mapInsert, hk']
  | some e =>
      obtain ⟨ts, cnts⟩ := e
      refine ⟨ThreadAwareAccountLocks.mk s.num_threads s.sequential_queue_limit
        s.write_locks
        (mapInsert s.read_locks k
          (ts.insert t, cnts.set t (cnts.getD t 0 + 1))),
        ?_, rfl, rfl, rfl, ?_⟩
      · cases hww : s.write_locks k with
        | none =>
            unfold read_lock_account
            rw [hrr, hww]
        | some p =>
            obtain ⟨t', c⟩ := p
            obtain rfl := hw t' c hww
            unfold read_lock_account
            rw [hrr, hww]
            exact if_pos rfl
      · intro k' hk'
        simp [mapInsert, hk']

theorem write_mask_conditions (s : ThreadAwareAccountLocks K) (k : K) (t : Nat)
    (ht64 : t < 64) (hWf : Wf s) (M : ThreadSet)
    (hM : write_schedulable_threads s k = some M) (htM : M.contains t = true) :
    (∀ t' c, s.write_locks k = some (t', c) →
      t' = t ∧ c + 1 ≤ s.sequential_queue_limit) ∧
    (∀ ts cnts, s.read_locks k = some (ts, cnts) → ts = ThreadSet.only t) := by
  obtain ⟨hnt0, hntle, hlim, hwf, hrf, hmix⟩ := hWf
  have hWf' : Wf s := ⟨hnt0, hntle, hlim, hwf, hrf, hmix⟩
  cases hww : s.write_locks k with
  | some p =>
      obtain ⟨wt, wc⟩ := p
      have hchar := (schedulable_write_locked s k wt wc hww hWf').2
      rw [hM] at hchar
      have hMeq := Option.some.inj hchar
      have hwt64 : wt < 64 :=
        lt_of_lt_of_le (wfWriteEntry_fields (hww ▸ hwf k)).1 hntle
      by_cases hcond : wc + read_count s k wt < s.sequential_queue_limit
      · rw [if_pos hcond] at hMeq
        rw [hMeq, ThreadSet.contains_only _ _ hwt64 ht64] at htM
        have hteq : t = wt := of_decide_eq_true htM
        constructor
        · intro t' c h
          have hinj := Option.some.inj h
          have ht' : t' = wt := (congrArg Prod.fst hinj).symm
          have hc : c = wc := (congrArg Prod.snd hinj).symm
          refine ⟨ht'.trans hteq.symm, ?_⟩
          rw [hc]
          omega
        · intro ts cnts h
          have hm := hmix k
          rw [hww, h] at hm
          rw [(wfMixedEntry_fields hm).1, hteq]
      · rw [if_neg hcond] at hMeq
        rw [hMeq, ThreadSet.contains_none] at htM
        exact absurd htM (by simp)
  | none =>
      constructor
      · intro t' c h
        exact absurd h (by simp)
      · intro ts cnts h
        have hf := wfReadEntry_fields (h ▸ hrf k)
        have hM' : some (match ts.only_one_contained with
            | some u =>
                if cnts.getD u 0 < s.sequential_queue_limit then ThreadSet.only u
                else ThreadSet.none
            | Option.none => ThreadSet.none) = some M := by
          rw [← hM]
          simp only [write_schedulable_threads,
            schedulable_threads_with_read_only_handler, hww, h]
        have hMeq := Option.some.inj hM'
        cases hooc : ts.only_one_contained with
        | none =>
            rw [hooc] at hMeq
            have hMeq' : ThreadSet.none = M := hMeq
            rw [← hMeq', ThreadSet.contains_none] at htM
            exact absurd htM (by simp)
        | some u =>
            rw [hooc] at hMeq
            have hMeq' : (if cnts.getD u 0 < s.sequential_queue_limit then
                ThreadSet.only u else ThreadSet.none) = M := hMeq
            by_cases hcl : cnts.getD u 0 < s.sequential_queue_limit
            · rw [if_pos hcl] at hMeq'
              obtain ⟨hu64, hmask⟩ :=
                (ThreadSet.only_one_contained_eq_some_iff ts hf.2.2.1 u).mp hooc
              rw [← hMeq', ThreadSet.contains_only _ _ hu64 ht64] at htM
              have hteq : t = u := of_decide_eq_true htM
              rw [hteq]
              exact ThreadSet.eq_only_of_mask ts u hu64 hmask
            · rw [if_neg hcl] at hMeq'
              rw [← hMeq', ThreadSet.contains_none] at htM
              exact absurd htM (by simp)

theorem read_mask_write_condition (s : ThreadAwareAccountLocks K) (k : K)
    (t : Nat) (ht64 : t < 64) (hWf : Wf s) (M : ThreadSet)
    (hM : read_schedulable_threads s k = some M) (htM : M.contains t = true) :
    ∀ t' c, s.write_locks k = some (t', c) → t' = t := by
  intro t' c h
  have hchar := (schedulable_write_locked s k t' c h hWf).1
  rw [hM] at hchar
  have hMeq := Option.some.inj hchar
  have ht'64 : t' < 64 :=
    lt_of_lt_of_le (wfWriteEntry_fields (h ▸ hWf.2.2.2.1 k)).1 hWf.2.1
  by_cases hcond : c + read_count s k t' < s.sequential_queue_limit
  · rw [if_pos hcond] at hMeq
    rw [hMeq, ThreadSet.contains_only _ _ ht'64 ht64] at htM
    exact (of_decide_eq_true htM).symm
  · rw [if_neg hcond] at hMeq
    rw [hMeq, ThreadSet.contains_none] at htM
    exact absurd htM (by simp)

theorem lock_write_accounts_of_conditions (ws : List K)
    (s u : ThreadAwareAccountLocks K) (t : Nat) (hnd : ws.Nodup)
    (hlimit : u.sequential_queue_limit = s.sequential_queue_limit)
    (hsame : ∀ k ∈ ws, u.write_locks k = s.write_locks k ∧
      u.read_locks k = s.read_locks k)
    (hcondW : ∀ k ∈ ws, ∀ t' c, s.write_locks k = some (t', c) →
      t' = t ∧ c + 1 ≤ s.sequential_queue_limit)
    (hcondR : ∀ k ∈ ws, ∀ ts cnts, s.read_locks k = some (ts, cnts) →
      ts = ThreadSet.only t) :
    ∃ u', lock_write_accounts u ws t = some u' ∧
      u'.num_threads = u.num_threads ∧
      u'.sequential_queue_limit = u.sequential_queue_limit ∧
      u'.read_locks = u.read_locks ∧
      (∀ k, k ∉ ws → u'.write_locks k = u.write_locks k) ∧
      (∀ k ∈ ws, ∃ c', u'.write_locks k = some (t, c')) := by
  induction ws generalizing u with
  | nil => exact ⟨u, rfl, rfl, rfl, rfl, fun k _ => rfl, fun k hk => absurd hk (by simp)⟩
  | cons k ks ih =>
      have hk_mem : k ∈ k :: ks := List.mem_cons_self k ks
      obtain ⟨s₁, hs₁, hnt₁, hlim₁, hrl₁, hwl₁, hwk₁⟩ :=
        write_lock_account_succeeds u k t
          (by
            intro t' c h
            rw [(hsame k hk_mem).1] at h
            have := hcondW k hk_mem t' c h
            rw [hlimit]
            exact this)
          (by
            intro ts cnts h
            rw [(hsame k hk_mem).2] at h
            exact hcondR k hk_mem ts cnts h)
      have hknotks : k ∉ ks := (List.nodup_cons.mp hnd).1
      obtain ⟨u', hu', hnt', hlim', hrl', hwl', hwk'⟩ :=
        ih s₁ (List.nodup_cons.mp hnd).2 (hlim₁.trans hlimit)
          (by
            intro k' hk'
            have hne : k' ≠ k := fun h => hknotks (h ▸ hk')
            constructor
            · rw [hwl₁ k' hne]
              exact (hsame k' (List.mem_cons_of_mem k hk')).1
            · rw [hrl₁]
              exact (hsame k' (List.mem_cons_of_mem k hk')).2)
          (fun k' hk' => hcondW k' (List.mem_cons_of_mem k hk'))
          (fun k' hk' => hcondR k' (List.mem_cons_of_mem k hk'))
      refine ⟨u', ?_, hnt'.trans hnt₁, hlim'.trans hlim₁, hrl'.trans hrl₁,
        ?_, ?_⟩
      · unfold lock_write_accounts at hu' ⊢
        rw [List.foldlM_cons, hs₁]
        exact hu'
      · intro k' hk'
        have hk'ne : k' ≠ k := fun h => hk' (h ▸ hk_mem)
        have hk'nks : k' ∉ ks := fun h => hk' (List.mem_cons_of_mem k h)
        rw [hwl' k' hk'nks, hwl₁ k' hk'ne]
      · intro k' hk'
        rcases List.mem_cons.mp hk' with rfl | hk'ks
        · obtain ⟨c', hc'⟩ := hwk₁
          exact ⟨c', by rw [hwl' k' hknotks, hc']⟩
        · exact hwk' k' hk'ks

theorem lock_read_accounts_of_conditions (rs : List K)
    (u : ThreadAwareAccountLocks K) (t : Nat)
    (hcond : ∀ k ∈ rs, ∀ t' c, u.write_locks k = some (t', c) → t' = t) :
    ∃ u', lock_read_accounts u rs t = some u' ∧
      u'.num_threads = u.num_threads ∧
      u'.sequential_queue_limit = u.sequential_queue_limit ∧
      u'.write_locks = u.write_locks := by
  induction rs generalizing u with
  | nil => exact ⟨u, rfl, rfl, rfl, rfl⟩
  | cons k ks ih =>
      obtain ⟨s₁, hs₁, hnt₁, hlim₁, hwl₁, _⟩ :=
        read_lock_account_succeeds u k t
          (hcond k (List.mem_cons_self k ks))
      obtain ⟨u', hu', hnt', hlim', hwl'⟩ :=
        ih s₁ (by
          intro k' hk' t' c h
          rw [hwl₁] at h
          exact hcond k' (List.mem_cons_of_mem k hk') t' c h)
      refine ⟨u', ?_, hnt'.trans hnt₁, hlim'.trans hlim₁, hwl'.trans hwl₁⟩
      unfold lock_read_accounts at hu' ⊢
      rw [List.foldlM_cons, hs₁]
      exact hu'

theorem lock_accounts_succeeds_of_schedulable (s : ThreadAwareAccountLocks K)
    (hWf : Wf s) (ws rs : List K) (A : ThreadSet) (t : Nat) (ht64 : t < 64)
    (hA : accounts_schedulable_threads s ws rs = some A)
    (htA : A.contains t = true) (hnd : ws.Nodup) :
    ∃ s', lock_accounts s ws rs t = some s' := by
  obtain ⟨A1, hA1, hA1c⟩ := foldlM_and_characterization
    (fun k => write_schedulable_threads s k) ws (ThreadSet.any s.num_threads)
    (fun k _ => write_schedulable_isSome s k hWf)
  obtain ⟨A2, hA2, hA2c⟩ := foldlM_and_characterization
    (fun k => read_schedulable_threads s k) rs A1
    (fun k _ => read_schedulable_isSome s k hWf)
  have hAeq : A2 = A := by
    have : accounts_schedulable_threads s ws rs = some A2 := by
      rw [accounts_schedulable_threads, hA1]
      simpa using hA2
    rw [hA] at this
    exact (Option.some.inj this).symm
  subst hAeq
  have hcontains := hA2c t
  rw [htA] at hcontains
  have h1 : A1.contains t = true ∧
      ∀ k ∈ rs, ((read_schedulable_threads s k).getD ThreadSet.none).contains t
        = true := by
    have := hcontains.symm
    simp only [Bool.and_eq_true, List.all_eq_true] at this
    exact ⟨this.1, fun k hk => this.2 k hk⟩
  have h2 : (ThreadSet.any s.num_threads).contains t = true ∧
      ∀ k ∈ ws, ((write_schedulable_threads s k).getD ThreadSet.none).contains t
        = true := by
    have := hA1c t
    rw [h1.1] at this
    have := this.symm
    simp only [Bool.and_eq_true, List.all_eq_true] at this
    exact ⟨this.1, fun k hk => this.2 k hk⟩
  have htnt : t < s.num_threads := by
    rcases lt_or_eq_of_le hWf.2.1 with hlt | heq
    · have := h2.1
      rw [ThreadSet.contains_any _ _ hlt ht64] at this
      exact of_decide_eq_true this
    · exfalso
      have := h2.1
      rw [heq, ThreadSet.any_64_eq_none, ThreadSet.contains_none] at this
      exact absurd this (by simp)
  have hwmask : ∀ k ∈ ws, ∀ M, write_schedulable_threads s k = some M →
      M.contains t = true := by
    intro k hk M hM
    have := h2.2 k hk
    rw [hM] at this
    exact this
  have hrmask : ∀ k ∈ rs, ∀ M, read_schedulable_threads s k = some M →
      M.contains t = true := by
    intro k hk M hM
    have := h1.2 k hk
    rw [hM] at this
    exact this
  obtain ⟨u', hu', hnt', hlim', hrl', hwlframe, hwlocked⟩ :=
    lock_write_accounts_of_conditions ws s s t hnd rfl
      (fun k _ => ⟨rfl, rfl⟩)
      (by
        intro k hk t' c h
        obtain ⟨M, hM⟩ := write_schedulable_isSome s k hWf
        exact (write_mask_conditions s k t ht64 hWf M hM (hwmask k hk M hM)).1 t' c h)
      (by
        intro k hk ts cnts h
        obtain ⟨M, hM⟩ := write_schedulable_isSome s k hWf
        exact (write_mask_conditions s k t ht64 hWf M hM (hwmask k hk M hM)).2 ts cnts h)
  obtain ⟨s', hs', _, _, _⟩ :=
    lock_read_accounts_of_conditions rs u' t
      (by
        intro k hk t' c h
        by_cases hkws : k ∈ ws
        · obtain ⟨c'', hc''⟩ := hwlocked k hkws
          rw [hc''] at h
          exact (congrArg Prod.fst (Option.some.inj h)).symm
        · rw [hwlframe k hkws] at h
          obtain ⟨M, hM⟩ := read_schedulable_isSome s k hWf
          exact read_mask_write_condition s k t ht64 hWf M hM (hrmask k hk M hM) t' c h)
  refine ⟨s', ?_⟩
  unfold lock_accounts
  rw [if_pos htnt, hu']
  exact hs'

theorem check_read_some {s : ThreadAwareAccountLocks K} {k : K} {t : Nat}
    {x y : ThreadAwareAccountLocks K}
    (h : write_lock_check_read s k t x = some y) : y = x := by
  unfold write_lock_check_read at h
  split at h
  · split at h
    · exact (Option.some.inj h).symm
    · exact absurd h (by simp)
  · exact (Option.some.inj h).symm

theorem check_read_cond {s : ThreadAwareAccountLocks K} {k : K} {t : Nat}
    {x y : ThreadAwareAccountLocks K}
    (h : write_lock_check_read s k t x = some y) :
    ∀ ts cnts, s.read_locks k = some (ts, cnts) → ts = ThreadSet.only t := by
  intro ts cnts hr
  unfold write_lock_check_read at h
  rw [hr] at h
  split at h
  case h_1 rts snd heq =>
      have hts : ts = rts := congrArg Prod.fst (Option.some.inj heq)
      split at h
      case isTrue hcond => exact hts.symm ▸ (hts ▸ hcond)
      case isFalse => exact absurd h (by simp)
  case h_2 heq => exact absurd heq (by simp)

theorem write_lock_shape {u : ThreadAwareAccountLocks K} {k : K} {t : Nat}
    {v : ThreadAwareAccountLocks K} (h : write_lock_account u k t = some v) :
    (∃ c', v = { u with write_locks := mapInsert u.write_locks k (t, c') } ∧
      ((u.write_locks k = Option.none ∧ c' = 1) ∨
       (∃ c, u.write_locks k = some (t, c) ∧ c' = c + 1 ∧
          c + 1 ≤ u.sequential_queue_limit))) ∧
    (∀ ts cnts, u.read_locks k = some (ts, cnts) → ts = ThreadSet.only t) := by
  unfold write_lock_account at h
  split at h
  case h_1 t0 c0 heq =>
      split at h
      case isTrue ht0 =>
          split at h
          case isTrue hc0 =>
              subst ht0
              exact ⟨⟨c0 + 1, (check_read_some h).symm ▸ rfl,
                Or.inr ⟨c0, heq, rfl, hc0⟩⟩, check_read_cond h⟩
          case isFalse => exact absurd h (by simp)
      case isFalse => exact absurd h (by simp)
  case h_2 heq =>
      exact ⟨⟨1, (check_read_some h).symm ▸ rfl, Or.inl ⟨heq, rfl⟩⟩,
        check_read_cond h⟩

theorem write_lock_build_none {u : ThreadAwareAccountLocks K} {k : K} {t : Nat}
    (h : u.write_locks k = Option.none)
    (hr : ∀ ts cnts, u.read_locks k = some (ts, cnts) → ts = ThreadSet.only t) :
    write_lock_account u k t
      = some { u with write_locks := mapInsert u.write_locks k (t, 1) } := by
  cases hrr : u.read_locks k with
  | none =>
      simp only [write_lock_account, h, write_lock_check_read, hrr]
  | some e =>
      obtain ⟨ts, cnts⟩ := e
      simp only [write_lock_account, h, write_lock_check_read, hrr,
        if_pos (hr ts cnts hrr)]

theorem write_lock_build_some {u : ThreadAwareAccountLocks K} {k : K} {t c : Nat}
    (h : u.write_locks k = some (t, c)) (hc : c + 1 ≤ u.sequential_queue_limit)
    (hr : ∀ ts cnts, u.read_locks k = some (ts, cnts) → ts = ThreadSet.only t) :
    write_lock_account u k t
      = some { u with write_locks := mapInsert u.write_locks k (t, c + 1) } := by
  cases hrr : u.read_locks k with
  | none =>
      simp only [write_lock_account, h, write_lock_check_read, hrr,
        eq_self_iff_true, if_true, hc]
  | some e =>
      obtain ⟨ts, cnts⟩ := e
      simp only [write_lock_account, h, write_lock_check_read, hrr,
        eq_self_iff_true, if_true, hc, if_pos (hr ts cnts hrr)]

theorem write_unlock_shape {u : ThreadAwareAccountLocks K} {k : K} {t : Nat}
    {u' : ThreadAwareAccountLocks K} (h : write_unlock_account u k t = some u') :
    ∃ c, u.write_locks k = some (t, c) ∧
      u' = { u with write_locks := write_unlock_updated u k t c } := by
  unfold write_unlock_account at h
  split at h
  case h_1 t0 c0 heq =>
      split at h
      case isTrue ht0 =>
          subst ht0
          refine ⟨c0, heq, ?_⟩
          unfold write_unlock_updated
          split at h
          case isTrue hc0 =>
              rw [if_pos hc0]
              exact (Option.some.inj h).symm
          case isFalse hc0 =>
              rw [if_neg hc0]
              exact (Option.some.inj h).symm
      case isFalse => exact absurd h (by simp)
  case h_2 => exact absurd h (by simp)

theorem write_unlock_build {u : ThreadAwareAccountLocks K} {k : K} {t c : Nat}
    (h : u.write_locks k = some (t, c)) :
    write_unlock_account u k t
      = some { u with write_locks := write_unlock_updated u k t c } := by
  unfold write_unlock_account write_unlock_updated
  rw [h]
  simp only [eq_self_iff_true, if_true]
  split
  case isTrue hc => rfl
  case isFalse hc => rfl

theorem read_lock_shape {u : ThreadAwareAccountLocks K} {k : K} {t : Nat}
    {v : ThreadAwareAccountLocks K} (h : read_lock_account u k t = some v) :
    (∀ t' c, u.write_locks k = some (t', c) → t' = t) ∧
    v = { u with read_locks := read_lock_updated u k t } := by
  cases hww : u.write_locks k with
  | none =>
      refine ⟨?_, ?_⟩
      · intro t' c heq
        exact absurd heq (by simp)
      · cases hrr : u.read_locks k with
        | none =>
            simp only [read_lock_account, hww, hrr] at h
            rw [show read_lock_updated u k t = mapInsert u.read_locks k
                (ThreadSet.only t, (List.replicate MAX_THREADS 0).set t 1) from by
              unfold read_lock_updated
              rw [hrr]]
            exact (Option.some.inj h).symm
        | some e =>
            obtain ⟨ts, cnts⟩ := e
            simp only [read_lock_account, hww, hrr] at h
            rw [show read_lock_updated u k t = mapInsert u.read_locks k
                (ts.insert t, cnts.set t (cnts.getD t 0 + 1)) from by
              unfold read_lock_updated
              rw [hrr]]
            exact (Option.some.inj h).symm
  | some p =>
      obtain ⟨wt, wc⟩ := p
      have hband : wt = t := by
        by_contra hne
        cases hrr : u.read_locks k with
        | none =>
            simp only [read_lock_account, hww, hrr, if_neg hne] at h
            exact Option.noConfusion h
        | some e =>
            obtain ⟨ts, cnts⟩ := e
            simp only [read_lock_account, hww, hrr, if_neg hne] at h
            exact Option.noConfusion h
      subst hband
      refine ⟨?_, ?_⟩
      · intro t' c heq
        exact (congrArg Prod.fst (Option.some.inj heq)).symm
      · cases hrr : u.read_locks k with
        | none =>
            simp only [read_lock_account, hww, hrr, if_pos rfl] at h
            rw [show read_lock_updated u k wt = mapInsert u.read_locks k
                (ThreadSet.only wt, (List.replicate MAX_THREADS 0).set wt 1) from by
              unfold read_lock_updated
              rw [hrr]]
            exact (Option.some.inj h).symm
        | some e =>
            obtain ⟨ts, cnts⟩ := e
            simp only [read_lock_account, hww, hrr, if_pos rfl] at h
            rw [show read_lock_updated u k wt = mapInsert u.read_locks k
                (ts.insert wt, cnts.set wt (cnts.getD wt 0 + 1)) from by
              unfold read_lock_updated
              rw [hrr]]
            exact (Option.some.inj h).symm

theorem read_lock_build {u : ThreadAwareAccountLocks K} {k : K} {t : Nat}
    (hw : ∀ t' c, u.write_locks k = some (t', c) → t' = t) :
    read_lock_account u k t
      = some { u with read_locks := read_lock_updated u k t } := by
  cases hww : u.write_locks k with
  | none =>
      cases hrr : u.read_locks k with
      | none =>
          rw [show read_lock_updated u k t = mapInsert u.read_locks k
              (ThreadSet.only t, (List.replicate MAX_THREADS 0).set t 1) from by
            unfold read_lock_updated
            rw [hrr]]
          simp only [read_lock_account, hww, hrr]
      | some e =>
          obtain ⟨ts, cnts⟩ := e
          rw [show read_lock_updated u k t = mapInsert u.read_locks k
              (ts.insert t, cnts.set t (cnts.getD t 0 + 1)) from by
            unfold read_lock_updated
            rw [hrr]]
          simp only [read_lock_account, hww, hrr]
  | some p =>
      obtain ⟨wt, wc⟩ := p
      obtain rfl := hw wt wc hww
      cases hrr : u.read_locks k with
      | none =>
          rw [show read_lock_updated u k wt = mapInsert u.read_locks k
              (ThreadSet.only wt, (List.replicate MAX_THREADS 0).set wt 1) from by
            unfold read_lock_updated
            rw [hrr]]
          simp only [read_lock_account, hww, hrr, eq_self_iff_true, if_true]
      | some e =>
          obtain ⟨ts, cnts⟩ := e
          rw [show read_lock_updated u k wt = mapInsert u.read_locks k
              (ts.insert wt, cnts.set wt (cnts.getD wt 0 + 1)) from by
            unfold read_lock_updated
            rw [hrr]]
          simp only [read_lock_account, hww, hrr, eq_self_iff_true, if_true]

theorem read_unlock_build {u : ThreadAwareAccountLocks K} {k : K} {t : Nat}
    {ts : ThreadSet} {cnts : List Nat}
    (h : u.read_locks k = some (ts, cnts)) (hc : ts.contains t = true) :
    read_unlock_account u k t
      = some { u with read_locks := read_unlock_updated u k t ts cnts } := by
  unfold read_unlock_account read_unlock_updated
  rw [h]
  simp only [hc, if_true]
  split
  case isTrue h0 =>
      split
      case isTrue hemp => rfl
      case isFalse hemp => rfl
  case isFalse h0 => rfl

theorem read_unlock_shape {u : ThreadAwareAccountLocks K} {k : K} {t : Nat}
    {u' : ThreadAwareAccountLocks K} (h : read_unlock_account u k t = some u') :
    ∃ ts cnts, u.read_locks k = some (ts, cnts) ∧ ts.contains t = true ∧
      u' = { u with read_locks := read_unlock_updated u k t ts cnts } := by
  unfold read_unlock_account at h
  split at h
  case h_1 ts cnts heq =>
      split at h
      case isTrue hc =>
          refine ⟨ts, cnts, heq, hc, ?_⟩
          unfold read_unlock_updated
          split at h
          case isTrue h0 =>
              rw [if_pos h0]
              split at h
              case isTrue hemp =>
                  rw [if_pos hemp]
                  exact (Option.some.inj h).symm
              case isFalse hemp =>
                  rw [if_neg hemp]
                  exact (Option.some.inj h).symm
          case isFalse h0 =>
              rw [if_neg h0]
              exact (Option.some.inj h).symm
      case isFalse => exact absurd h (by simp)
  case h_2 => exact absurd h (by simp)

theorem wfU_of_wf {s : ThreadAwareAccountLocks K} (h : Wf s) : WfU s := by
  obtain ⟨_, _, _, hwf, hrf, _⟩ := h
  constructor
  · intro k
    have h1 := hwf k
    cases hk : s.write_locks k with
    | none => simp [wfWriteEntryU, hk]
    | some p =>
        obtain ⟨t, c⟩ := p
        rw [hk] at h1
        unfold wfWriteEntry at h1
        simp only [Bool.and_eq_true, decide_eq_true_eq] at h1
        simp [wfWriteEntryU, hk, h1.1.2]
  · intro k
    have h1 := hrf k
    cases hk : s.read_locks k with
    | none => simp [wfReadEntryU, hk]
    | some e =>
        obtain ⟨ts, cnts⟩ := e
        rw [hk] at h1
        unfold wfReadEntry at h1
        simp only [Bool.and_eq_true, decide_eq_true_eq, List.all_eq_true] at h1
        simp only [wfReadEntryU, Bool.and_eq_true, decide_eq_true_eq,
          List.all_eq_true]
        exact ⟨⟨⟨h1.1.1.1, h1.1.1.2⟩, h1.1.2⟩, fun t hmem => (h1.2 t hmem).1.1⟩

theorem write_lock_unlock_cancel {u v : ThreadAwareAccountLocks K} {k : K}
    {t : Nat} (hU : WfU u) (h : write_lock_account u k t = some v) :
    write_unlock_account v k t = some u := by
  obtain ⟨⟨c', hv, hcase⟩, _⟩ := write_lock_shape h
  subst hv
  have hvk : (mapInsert u.write_locks k (t, c')) k = some (t, c') :=
    mapInsert_self _ _ _
  rw [write_unlock_build hvk]
  rcases hcase with ⟨hnone, rfl⟩ | ⟨c, hsome, rfl, hle⟩
  · have hupd : write_unlock_updated
        { u with write_locks := mapInsert u.write_locks k (t, 1) } k t 1
        = u.write_locks := by
      unfold write_unlock_updated
      rw [if_pos rfl]
      exact mapRemove_insert_cancel _ hnone
    rw [hupd]
  · have hc1 : 1 ≤ c := by
      have := hU.1 k
      rw [hsome] at this
      unfold wfWriteEntryU at this
      exact of_decide_eq_true this
    have hupd : write_unlock_updated
        { u with write_locks := mapInsert u.write_locks k (t, c + 1) } k t (c + 1)
        = u.write_locks := by
      unfold write_unlock_updated
      rw [if_neg (by omega)]
      show mapInsert (mapInsert u.write_locks k (t, c + 1)) k (t, c + 1 - 1)
        = u.write_locks
      rw [show c + 1 - 1 = c from by omega]
      exact mapInsert_cancel _ hsome
    rw [hupd]

theorem read_lock_unlock_cancel {u v : ThreadAwareAccountLocks K} {k : K}
    {t : Nat} (hU : WfU u) (ht : t < 64)
    (h : read_lock_account u k t = some v) :
    read_unlock_account v k t = some u := by
  obtain ⟨_, hv⟩ := read_lock_shape h
  subst hv
  cases hrr : u.read_locks k with
  | none =>
      have hupdeq : read_lock_updated u k t = mapInsert u.read_locks k
          (ThreadSet.only t, (List.replicate MAX_THREADS 0).set t 1) := by
        unfold read_lock_updated
        rw [hrr]
      have hvk : (read_lock_updated u k t) k = some
          (ThreadSet.only t, (List.replicate MAX_THREADS 0).set t 1) := by
        rw [hupdeq]
        exact mapInsert_self _ _ _
      have hcont : (ThreadSet.only t).contains t = true := by
        rw [ThreadSet.contains_only _ _ ht ht]
        simp
      rw [read_unlock_build hvk hcont]
      have hget : ((List.replicate MAX_THREADS 0).set t 1).getD t 0 = 1 :=
        getD_set_self _ _ _ (by simp [MAX_THREADS, ht])
      have hupd : read_unlock_updated
          { u with read_locks := read_lock_updated u k t } k t
          (ThreadSet.only t) ((List.replicate MAX_THREADS 0).set t 1)
          = u.read_locks := by
        unfold read_unlock_updated
        rw [hget, if_pos rfl, ThreadSet.remove_only_self ht,
          if_pos (by rfl), hupdeq]
        exact mapRemove_insert_cancel _ hrr
      rw [hupd]
  | some e =>
      obtain ⟨ts, cnts⟩ := e
      have hrfields := hU.2 k
      rw [hrr] at hrfields
      unfold wfReadEntryU at hrfields
      simp only [Bool.and_eq_true, decide_eq_true_eq, List.all_eq_true,
        List.mem_range] at hrfields
      obtain ⟨⟨⟨hlen, hmask0⟩, hmasklt⟩, hiff⟩ := hrfields
      have hiff' : ∀ i, i < 64 → (ts.contains i = true ↔ cnts.getD i 0 ≠ 0) := by
        intro i hi
        have := hiff i hi
        rw [beq_iff_eq] at this
        rw [this]
        simp
      have hupdeq : read_lock_updated u k t = mapInsert u.read_locks k
          (ts.insert t, cnts.set t (cnts.getD t 0 + 1)) := by
        unfold read_lock_updated
        rw [hrr]
      have hvk : (read_lock_updated u k t) k = some
          (ts.insert t, cnts.set t (cnts.getD t 0 + 1)) := by
        rw [hupdeq]
        exact mapInsert_self _ _ _
      have hcont : (ts.insert t).contains t = true := by
        rw [ThreadSet.contains_insert _ _ _ ht ht]
        simp
      rw [read_unlock_build hvk hcont]
      have hget : (cnts.set t (cnts.getD t 0 + 1)).getD t 0 = cnts.getD t 0 + 1 :=
        getD_set_self _ _ _ (by omega)
      have hsetset : (cnts.set t (cnts.getD t 0 + 1)).set t (cnts.getD t 0)
          = cnts := by
        rw [List.set_set]
        exact set_getD_self _ _ (by omega)
      by_cases hc0 : cnts.getD t 0 = 0
      · have hnotc : ts.contains t = false := by
          cases hcontc : ts.contains t
          · rfl
          · exact absurd hc0 ((hiff' t ht).mp hcontc)
        have hupd : read_unlock_updated
            { u with read_locks := read_lock_updated u k t } k t
            (ts.insert t) (cnts.set t (cnts.getD t 0 + 1)) = u.read_locks := by
          unfold read_unlock_updated
          rw [hget]
          rw [if_pos (by omega)]
          rw [ThreadSet.insert_remove_cancel hmasklt ht hnotc]
          have hne : ts.is_empty = false := by
            unfold ThreadSet.is_empty
            cases ts with
            | mk m => simp [ThreadSet.none, hmask0]
          rw [hne]
          simp only [Bool.false_eq_true, if_false]
          rw [show cnts.getD t 0 + 1 - 1 = cnts.getD t 0 from by omega, hsetset,
            hupdeq]
          exact mapInsert_cancel _ hrr
        rw [hupd]
      · have hcontc : ts.contains t = true := (hiff' t ht).mpr hc0
        have hupd : read_unlock_updated
            { u with read_locks := read_lock_updated u k t } k t
            (ts.insert t) (cnts.set t (cnts.getD t 0 + 1)) = u.read_locks := by
          unfold read_unlock_updated
          rw [hget]
          rw [if_neg (by omega)]
          rw [show cnts.getD t 0 + 1 - 1 = cnts.getD t 0 from by omega, hsetset]
          rw [ThreadSet.insert_self_of_contains ht hcontc, hupdeq]
          exact mapInsert_cancel _ hrr
        rw [hupd]

end ThreadAwareAccountLocks

theorem mapInsert_comm_ne {K V : Type} [DecidableEq K] (m : K → Option V)
    (k k' : K) (v w : V) (h : k ≠ k') :
    mapInsert (mapInsert m k v) k' w = mapInsert (mapInsert m k' w) k v := by
  funext x
  by_cases h1 : x = k'
  · subst h1
    rw [mapInsert_self, mapInsert_ne _ _ _ _ (Ne.symm h), mapInsert_self]
  · by_cases h2 : x = k
    · subst h2
      rw [mapInsert_ne _ _ _ _ h1, mapInsert_self, mapInsert_self]
    · rw [mapInsert_ne _ _ _ _ h1, mapInsert_ne _ _ _ _ h2,
        mapInsert_ne _ _ _ _ h2, mapInsert_ne _ _ _ _ h1]

theorem mapRemove_mapInsert_comm_ne {K V : Type} [DecidableEq K]
    (m : K → Option V) (k k' : K) (w : V) (h : k ≠ k') :
    mapInsert (mapRemove m k) k' w = mapRemove (mapInsert m k' w) k := by
  funext x
  by_cases h1 : x = k'
  · subst h1
    rw [mapInsert_self, mapRemove_ne _ _ _ (Ne.symm h), mapInsert_self]
  · by_cases h2 : x = k
    · subst h2
      rw [mapInsert_ne _ _ _ _ h1, mapRemove_self, mapRemove_self]
    · rw [mapInsert_ne _ _ _ _ h1, mapRemove_ne _ _ _ h2,
        mapRemove_ne _ _ _ h2, mapInsert_ne _ _ _ _ h1]

namespace ThreadAwareAccountLocks

variable {K : Type} [DecidableEq K]

theorem write_unlock_updated_ne {u : ThreadAwareAccountLocks K} {k k' : K}
    {t c : Nat} (h : k ≠ k') :
    write_unlock_updated u k t c k' = u.write_locks k' := by
  unfold write_unlock_updated
  split
  · exact mapRemove_ne _ _ _ (Ne.symm h)
  · exact mapInsert_ne _ _ _ _ (Ne.symm h)

theorem write_unlock_read_lock_comm {u u' v : ThreadAwareAccountLocks K}
    {k k' : K} {t : Nat}
    (hu : write_unlock_account u k t = some u')
    (hl : read_lock_account u k' t = some v) :
    ∃ w, read_lock_account u' k' t = some w ∧
      write_unlock_account v k t = some w := by
  obtain ⟨c, hck, rfl⟩ := write_unlock_shape hu
  obtain ⟨hwcond, rfl⟩ := read_lock_shape hl
  have hgate : ∀ t' c',
      ({ u with write_locks := write_unlock_updated u k t c }).write_locks k'
        = some (t', c') → t' = t := by
    intro t' c' h
    by_cases hkk : k' = k
    · subst hkk
      have h' : write_unlock_updated u k' t c k' = some (t', c') := h
      unfold write_unlock_updated at h'
      split at h'
      · rw [mapRemove_self] at h'
        exact absurd h' (by simp)
      · rw [mapInsert_self] at h'
        exact (congrArg Prod.fst (Option.some.inj h')).symm
    · have h' : write_unlock_updated u k t c k' = some (t', c') := h
      rw [write_unlock_updated_ne (fun he => hkk he.symm)] at h'
      exact hwcond t' c' h'
  refine ⟨_, read_lock_build hgate, ?_⟩
  have hvk : ({ u with read_locks := read_lock_updated u k' t }).write_locks k
      = some (t, c) := hck
  rw [write_unlock_build hvk]
  rfl

theorem write_unlock_write_lock_comm {u u' v : ThreadAwareAccountLocks K}
    {k k' : K} {t : Nat} (hkk : k ≠ k')
    (hu : write_unlock_account u k t = some u')
    (hl : write_lock_account u k' t = some v) :
    ∃ w, write_lock_account u' k' t = some w ∧
      write_unlock_account v k t = some w := by
  obtain ⟨c, hck, rfl⟩ := write_unlock_shape hu
  obtain ⟨⟨c', rfl, hcase⟩, hrcond⟩ := write_lock_shape hl
  have hwl_at_k' : write_unlock_updated u k t c k' = u.write_locks k' :=
    write_unlock_updated_ne hkk
  have hwl_at_k : mapInsert u.write_locks k' (t, c') k = u.write_locks k :=
    mapInsert_ne _ _ _ _ hkk
  have hmain : mapInsert (write_unlock_updated u k t c) k' (t, c')
      = write_unlock_updated
          { u with write_locks := mapInsert u.write_locks k' (t, c') } k t c := by
    show mapInsert (write_unlock_updated u k t c) k' (t, c')
      = write_unlock_updated
          { u with write_locks := mapInsert u.write_locks k' (t, c') } k t c
    unfold write_unlock_updated
    split
    · exact mapRemove_mapInsert_comm_ne _ _ _ _ hkk
    · exact mapInsert_comm_ne _ _ _ _ _ hkk
  have hunlock : write_unlock_account
      { u with write_locks := mapInsert u.write_locks k' (t, c') } k t
      = some { u with write_locks := mapInsert (write_unlock_updated u k t c) k' (t, c') } := by
    rw [write_unlock_build (show mapInsert u.write_locks k' (t, c') k
        = some (t, c) from hwl_at_k.trans hck)]
    rw [show (write_unlock_updated
        { u with write_locks := mapInsert u.write_locks k' (t, c') } k t c : K → Option (Nat × Nat))
      = mapInsert (write_unlock_updated u k t c) k' (t, c') from hmain.symm]
  rcases hcase with ⟨hnone, rfl⟩ | ⟨c0, hsome, rfl, hle⟩
  · refine ⟨_, write_lock_build_none
      (show write_unlock_updated u k t c k' = Option.none from
        hwl_at_k'.trans hnone)
      (fun ts cnts hr => hrcond ts cnts hr), ?_⟩
    exact hunlock
  · refine ⟨_, write_lock_build_some
      (show write_unlock_updated u k t c k' = some (t, c0) from
        hwl_at_k'.trans hsome)
      (show c0 + 1 ≤ ({ u with write_locks := write_unlock_updated u k t c
        }).sequential_queue_limit from hle)
      (fun ts cnts hr => hrcond ts cnts hr), ?_⟩
    exact hunlock

theorem read_lock_updated_apply (u : ThreadAwareAccountLocks K) (k' : K)
    (t : Nat) (x : K) :
    read_lock_updated u k' t x =
      if x = k' then
        some (match u.read_locks k' with
          | some (a, b) => (a.insert t, b.set t (b.getD t 0 + 1))
          | Option.none =>
              (ThreadSet.only t, (List.replicate MAX_THREADS 0).set t 1))
      else u.read_locks x := by
  unfold read_lock_updated
  cases hr : u.read_locks k' with
  | none => by_cases hx : x = k' <;> simp [mapInsert, hx, hr]
  | some e =>
      obtain ⟨a, b⟩ := e
      by_cases hx : x = k' <;> simp [mapInsert, hx, hr]

theorem read_unlock_updated_apply (u : ThreadAwareAccountLocks K) (k : K)
    (t : Nat) (ts : ThreadSet) (cnts : List Nat) (x : K) :
    read_unlock_updated u k t ts cnts x =
      if x = k then
        (if cnts.getD t 0 - 1 = 0 then
           (if (ts.remove t).is_empty = true then Option.none
            else some (ts.remove t, cnts.set t (cnts.getD t 0 - 1)))
         else some (ts, cnts.set t (cnts.getD t 0 - 1)))
      else u.read_locks x := by
  unfold read_unlock_updated
  by_cases hx : x = k <;> split_ifs <;> simp [mapInsert, mapRemove, hx]

theorem read_unlock_read_lock_comm {u u' v : ThreadAwareAccountLocks K}
    {k k' : K} {t : Nat} (hkk : k ≠ k')
    (hu : read_unlock_account u k t = some u')
    (hl : read_lock_account u k' t = some v) :
    ∃ w, read_lock_account u' k' t = some w ∧
      read_unlock_account v k t = some w := by
  obtain ⟨ts, cnts, hck, hcont, rfl⟩ := read_unlock_shape hu
  obtain ⟨hwcond, rfl⟩ := read_lock_shape hl
  have hRU_at_k' : read_unlock_updated u k t ts cnts k' = u.read_locks k' := by
    rw [read_unlock_updated_apply, if_neg (fun he => hkk he.symm)]
  have hRL_at_k : read_lock_updated u k' t k = u.read_locks k := by
    rw [read_lock_updated_apply, if_neg hkk]
  have hgate : ∀ t' c',
      ({ u with read_locks := read_unlock_updated u k t ts cnts }).write_locks k'
        = some (t', c') → t' = t := hwcond
  refine ⟨_, read_lock_build hgate, ?_⟩
  have hvk : ({ u with read_locks := read_lock_updated u k' t }).read_locks k
      = some (ts, cnts) := by
    show read_lock_updated u k' t k = some (ts, cnts)
    rw [hRL_at_k]
    exact hck
  rw [read_unlock_build hvk hcont]
  have hfinal : read_unlock_updated
      { u with read_locks := read_lock_updated u k' t } k t ts cnts
      = read_lock_updated
          { u with read_locks := read_unlock_updated u k t ts cnts } k' t := by
    funext x
    rw [read_unlock_updated_apply, read_lock_updated_apply]
    by_cases hx1 : x = k
    · subst hx1
      rw [if_pos rfl, if_neg hkk]
      show _ = read_unlock_updated u x t ts cnts x
      rw [read_unlock_updated_apply, if_pos rfl]
    · rw [if_neg hx1]
      by_cases hx2 : x = k'
      · subst hx2
        rw [if_pos rfl]
        show read_lock_updated u x t x = _
        rw [read_lock_updated_apply, if_pos rfl]
        dsimp only
        rw [hRU_at_k']
      · rw [if_neg hx2]
        show read_lock_updated u k' t x = read_unlock_updated u k t ts cnts x
        rw [read_lock_updated_apply, if_neg hx2,
          read_unlock_updated_apply, if_neg hx1]
  exact congrArg (fun m => some (ThreadAwareAccountLocks.mk u.num_threads
    u.sequential_queue_limit u.write_locks m)) hfinal

theorem opt_bind_eq_some {α β : Type} {x : Option α} {f : α → Option β}
    {b : β} : (x >>= f) = some b ↔ ∃ a, x = some a ∧ f a = some b := by
  cases x <;> simp

theorem write_unlock_lock_write_list_comm {u u' v : ThreadAwareAccountLocks K}
    {k : K} {ks : List K} {t : Nat} (hk : k ∉ ks)
    (hu : write_unlock_account u k t = some u')
    (hl : lock_write_accounts u ks t = some v) :
    ∃ w, lock_write_accounts u' ks t = some w ∧
      write_unlock_account v k t = some w := by
  induction ks generalizing u u' with
  | nil =>
      obtain rfl : u = v := Option.some.inj hl
      exact ⟨u', rfl, hu⟩
  | cons a as ih =>
      unfold lock_write_accounts at hl
      rw [List.foldlM_cons] at hl
      rw [opt_bind_eq_some] at hl
      obtain ⟨u₁, ha, has⟩ := hl
      have hne : k ≠ a := fun he => hk (he ▸ List.mem_cons_self a as)
      obtain ⟨w₁, hw₁l, hw₁u⟩ := write_unlock_write_lock_comm hne hu ha
      obtain ⟨w, hwl, hwu⟩ :=
        ih (fun hm => hk (List.mem_cons_of_mem a hm)) hw₁u has
      refine ⟨w, ?_, hwu⟩
      unfold lock_write_accounts
      rw [List.foldlM_cons, hw₁l]
      exact hwl

theorem write_unlock_lock_read_list_comm {u u' v : ThreadAwareAccountLocks K}
    {k : K} {rs : List K} {t : Nat}
    (hu : write_unlock_account u k t = some u')
    (hl : lock_read_accounts u rs t = some v) :
    ∃ w, lock_read_accounts u' rs t = some w ∧
      write_unlock_account v k t = some w := by
  induction rs generalizing u u' with
  | nil =>
      obtain rfl : u = v := Option.some.inj hl
      exact ⟨u', rfl, hu⟩
  | cons a as ih =>
      unfold lock_read_accounts at hl
      rw [List.foldlM_cons] at hl
      rw [opt_bind_eq_some] at hl
      obtain ⟨u₁, ha, has⟩ := hl
      obtain ⟨w₁, hw₁l, hw₁u⟩ := write_unlock_read_lock_comm hu ha
      obtain ⟨w, hwl, hwu⟩ := ih hw₁u has
      refine ⟨w, ?_, hwu⟩
      unfold lock_read_accounts
      rw [List.foldlM_cons, hw₁l]
      exact hwl

theorem read_unlock_lock_read_list_comm {u u' v : ThreadAwareAccountLocks K}
    {k : K} {ks : List K} {t : Nat} (hk : k ∉ ks)
    (hu : read_unlock_account u k t = some u')
    (hl : lock_read_accounts u ks t = some v) :
    ∃ w, lock_read_accounts u' ks t = some w ∧
      read_unlock_account v k t = some w := by
  induction ks generalizing u u' with
  | nil =>
      obtain rfl : u = v := Option.some.inj hl
      exact ⟨u', rfl, hu⟩
  | cons a as ih =>
      unfold lock_read_accounts at hl
      rw [List.foldlM_cons] at hl
      rw [opt_bind_eq_some] at hl
      obtain ⟨u₁, ha, has⟩ := hl
      have hne : k ≠ a := fun he => hk (he ▸ List.mem_cons_self a as)
      obtain ⟨w₁, hw₁l, hw₁u⟩ := read_unlock_read_lock_comm hne hu ha
      obtain ⟨w, hwl, hwu⟩ :=
        ih (fun hm => hk (List.mem_cons_of_mem a hm)) hw₁u has
      refine ⟨w, ?_, hwu⟩
      unfold lock_read_accounts
      rw [List.foldlM_cons, hw₁l]
      exact hwl

theorem unlock_write_list_lock_read_list_comm
    {u u' v : ThreadAwareAccountLocks K} {ws rs : List K} {t : Nat}
    (hu : unlock_write_accounts u ws t = some u')
    (hl : lock_read_accounts u rs t = some v) :
    ∃ w, lock_read_accounts u' rs t = some w ∧
      unlock_write_accounts v ws t = some w := by
  induction ws generalizing u v with
  | nil =>
      obtain rfl : u = u' := Option.some.inj hu
      exact ⟨v, hl, rfl⟩
  | cons a as ih =>
      unfold unlock_write_accounts at hu
      rw [List.foldlM_cons] at hu
      rw [opt_bind_eq_some] at hu
      obtain ⟨u₁, ha, has⟩ := hu
      obtain ⟨v₁, hv₁l, hv₁u⟩ := write_unlock_lock_read_list_comm ha hl
      obtain ⟨w, hwl, hwu⟩ := ih has hv₁l
      refine ⟨w, hwl, ?_⟩
      unfold unlock_write_accounts
      rw [List.foldlM_cons, hv₁u]
      exact hwu

theorem lock_write_list_cancel {s s₁ : ThreadAwareAccountLocks K}
    {ws : List K} {t : Nat} (hU : WfU s) (hnd : ws.Nodup)
    (h : lock_write_accounts s ws t = some s₁) :
    unlock_write_accounts s₁ ws t = some s := by
  induction ws generalizing s s₁ with
  | nil =>
      obtain rfl : s = s₁ := Option.some.inj h
      rfl
  | cons a as ih =>
      unfold lock_write_accounts at h
      rw [List.foldlM_cons] at h
      rw [opt_bind_eq_some] at h
      obtain ⟨sa, hwa, has⟩ := h
      have hinv : write_unlock_account sa a t = some s :=
        write_lock_unlock_cancel hU hwa
      obtain ⟨w, hlw, hur⟩ := write_unlock_lock_write_list_comm
        (List.nodup_cons.mp hnd).1 hinv has
      have hrest : unlock_write_accounts w as t = some s :=
        ih hU (List.nodup_cons.mp hnd).2 hlw
      unfold unlock_write_accounts
      rw [List.foldlM_cons, hur]
      exact hrest

theorem lock_read_list_cancel {s s₁ : ThreadAwareAccountLocks K}
    {rs : List K} {t : Nat} (hU : WfU s) (ht : t < 64) (hnd : rs.Nodup)
    (h : lock_read_accounts s rs t = some s₁) :
    unlock_read_accounts s₁ rs t = some s := by
  induction rs generalizing s s₁ with
  | nil =>
      obtain rfl : s = s₁ := Option.some.inj h
      rfl
  | cons a as ih =>
      unfold lock_read_accounts at h
      rw [List.foldlM_cons] at h
      rw [opt_bind_eq_some] at h
      obtain ⟨sa, hwa, has⟩ := h
      have hinv : read_unlock_account sa a t = some s :=
        read_lock_unlock_cancel hU ht hwa
      obtain ⟨w, hlw, hur⟩ := read_unlock_lock_read_list_comm
        (List.nodup_cons.mp hnd).1 hinv has
      have hrest : unlock_read_accounts w as t = some s :=
        ih hU (List.nodup_cons.mp hnd).2 hlw
      unfold unlock_read_accounts
      rw [List.foldlM_cons, hur]
      exact hrest

end ThreadAwareAccountLocks

/-- C7 counterexample: `ThreadSet::any(64)` is **not** the full 64-bit
mask.  `as_flag(64)` is the overflowing shift `1u64 << 64` — a panic under
overflow checks, and `1 << 0 = 1` with the release-mode masked shift — so
`any 64` is the **empty** set: it contains no thread at all, although
`num_threads = 64` is within the claim's range `1 ≤ num_threads ≤ 64`. -/
theorem C7_any64_counterexample :
    ThreadSet.any 64 = ThreadSet.none ∧
    (ThreadSet.any 64).is_empty = true ∧
    (ThreadSet.any 64).contains 0 = false ∧
    (ThreadSet.any 64).contains 63 = false ∧
    (1 ≤ 64 ∧ 64 ≤ 64) := by
  refine ⟨rfl, rfl, ?_, ?_, by norm_num, by norm_num⟩ <;> decide

/-- C7 (amended): `ThreadSet` implements a subset of
`{0, …, num_threads-1}` as a 64-bit mask, with `any n` carrying the
first-`n`-bits semantics only for `n ≤ 63`: at `n = 64` the u64 shift in
`as_flag` overflows and `any 64` is the empty set (or a panic under
overflow checks).  `only`, `contains`, `insert`, `remove`,
`only_one_contained` and `is_empty` behave as membership, singleton,
union, difference, unique-member extraction and emptiness for all
thread ids below 64. -/
theorem C7_thread_set_mask_semantics (s : ThreadSet) (hs : s.mask < 2 ^ 64)
    (n : Nat) (hn1 : 1 ≤ n) (hn2 : n < 64) (t u : Nat) (ht : t < 64) (hu : u < 64) :
    ((ThreadSet.any n).contains t ↔ t < n) ∧
    ((ThreadSet.only u).contains t ↔ t = u) ∧
    ((s.insert u).contains t ↔ (s.contains t ∨ t = u)) ∧
    ((s.remove u).contains t ↔ (s.contains t ∧ t ≠ u)) ∧
    (s.only_one_contained = some u ↔ ∀ i, i < 64 → (s.contains i ↔ i = u)) ∧
    (s.only_one_contained = Option.none ↔
      ∀ v, v < 64 → ¬∀ i, i < 64 → (s.contains i ↔ i = v)) ∧
    (s.is_empty ↔ ∀ i, i < 64 → ¬s.contains i) := by
  have hsing : ∀ v, v < 64 →
      (s.only_one_contained = some v ↔ ∀ i, i < 64 → (s.contains i ↔ i = v)) := by
    intro v hv
    rw [ThreadSet.only_one_contained_eq_some_iff s hs v]
    rw [show (∀ i, i < 64 → (s.contains i ↔ i = v)) ↔
          (∀ i, i < 64 → (s.contains i = true ↔ i = v)) from Iff.rfl]
    rw [ThreadSet.members_decide_iff s v]
    constructor
    · rintro ⟨_, hm⟩
      exact (ThreadSet.eq_two_pow_iff_members s hs v hv).mp hm
    · intro h
      exact ⟨hv, (ThreadSet.eq_two_pow_iff_members s hs v hv).mpr h⟩
  refine ⟨?_, ?_, ?_, ?_, hsing u hu, ?_, ?_⟩
  · simp [ThreadSet.contains_any _ _ hn2 ht]
  · simp [ThreadSet.contains_only _ _ hu ht]
  · simp [ThreadSet.contains_insert _ _ _ hu ht]
  · simp [ThreadSet.contains_remove s u t hu ht]
  · constructor
    · intro hnone v hv hall
      have := (hsing v hv).mpr hall
      rw [hnone] at this
      exact Option.noConfusion this
    · intro h
      cases hooc : s.only_one_contained with
      | none => rfl
      | some w =>
          have hw : w < 64 ∧ s.mask = 2 ^ w :=
            (ThreadSet.only_one_contained_eq_some_iff s hs w).mp hooc
          have hall := (ThreadSet.members_decide_iff s w).mpr
            ((ThreadSet.eq_two_pow_iff_members s hs w hw.1).mp hw.2)
          exact absurd hall (h w hw.1)
  · rw [show (s.is_empty ↔ ∀ i, i < 64 → ¬s.contains i) ↔
        (s.is_empty = true ↔ ∀ i, i < 64 → s.contains i = false) by simp]
    exact ThreadSet.is_empty_iff s hs

/-- Witness for C7 at `s = {1, 2}` (mask 6), `n = 3`, `t = 1`, `u = 2`. -/
theorem C7_thread_set_mask_semantics_witness :
    ((ThreadSet.mk 6).mask < 2 ^ 64 ∧ 1 ≤ 3 ∧ 3 < 64 ∧ 1 < 64 ∧ 2 < 64) ∧
    (((ThreadSet.any 3).contains 1 ↔ 1 < 3) ∧
     ((ThreadSet.only 2).contains 1 ↔ 1 = 2) ∧
     (((ThreadSet.mk 6).insert 2).contains 1 ↔
        ((ThreadSet.mk 6).contains 1 ∨ 1 = 2)) ∧
     (((ThreadSet.mk 6).remove 2).contains 1 ↔
        ((ThreadSet.mk 6).contains 1 ∧ 1 ≠ 2)) ∧
     ((ThreadSet.mk 6).only_one_contained = some 2 ↔
        ∀ i, i < 64 → ((ThreadSet.mk 6).contains i ↔ i = 2)) ∧
     ((ThreadSet.mk 6).only_one_contained = Option.none ↔
        ∀ v, v < 64 → ¬∀ i, i < 64 → ((ThreadSet.mk 6).contains i ↔ i = v)) ∧
     ((ThreadSet.mk 6).is_empty ↔ ∀ i, i < 64 → ¬(ThreadSet.mk 6).contains i)) :=
  ⟨⟨by norm_num, by norm_num, by norm_num, by norm_num, by norm_num⟩,
   C7_thread_set_mask_semantics (ThreadSet.mk 6) (by norm_num) 3 (by norm_num)
     (by norm_num) 1 2 (by norm_num) (by norm_num)⟩

/-- C1 counterexample: at `num_threads = 64` — allowed by `Wf` and inside
the claim's "every lock-table state" — an *unlocked* account does **not**
yield all threads: `ThreadSet::any(64)` is the overflowing shift
`1u64 << 64` minus one, i.e. a panic under overflow checks and the empty
set in release builds, so on the well-formed table `s64` every
schedulability mask is empty and no thread is schedulable. -/
theorem C1_any64_schedulable_counterexample :
    ThreadAwareAccountLocks.Wf s64 ∧
    s64.num_threads = 64 ∧
    s64.write_locks 0 = Option.none ∧ s64.read_locks 0 = Option.none ∧
    ThreadAwareAccountLocks.read_schedulable_threads s64 0
      = some (ThreadSet.any 64) ∧
    ThreadSet.any 64 = ThreadSet.none ∧
    ((ThreadAwareAccountLocks.accounts_schedulable_threads s64
        [(0 : Fin 1)] []).map fun S => S.is_empty) = some true := by
  refine ⟨?_, rfl, rfl, rfl, rfl, rfl, rfl⟩
  unfold ThreadAwareAccountLocks.Wf
  refine ⟨by norm_num [s64], by norm_num [s64], by norm_num [s64],
    ?_, ?_, ?_⟩ <;> decide

/-- C1 (amended): per-account schedulability masks, for tables with
`num_threads < 64` (at `num_threads = 64` the `ThreadSet::any` shift
overflow makes every mask empty — see the counterexample).  For a
readable account: unlocked
yields all threads; only-read-locked yields every thread in range whose
per-thread read count is below `sequential_queue_limit`; write-locked
yields only the write-holding thread when its total count (write count plus
its read count) is below the limit.  For a writable account: unlocked
yields all threads; read-locked on exactly one thread yields only that
thread when its count would not exceed the limit and the empty set
otherwise; read-locked on several threads yields the empty set;
write-locked yields only the write-holding thread when its count is below
the limit.  The overall mask is the intersection of all per-account masks
over the write and read keys, within the all-threads mask. -/
theorem C1_accounts_schedulable_threads {K : Type} [DecidableEq K]
    (s : ThreadAwareAccountLocks K) (hWf : ThreadAwareAccountLocks.Wf s)
    (hnt : s.num_threads < 64) (k : K) :
    (s.write_locks k = Option.none → s.read_locks k = Option.none →
      ThreadAwareAccountLocks.read_schedulable_threads s k
        = some (ThreadSet.any s.num_threads)) ∧
    (∀ ts cnts, s.write_locks k = Option.none →
      s.read_locks k = some (ts, cnts) →
      ∃ M, ThreadAwareAccountLocks.read_schedulable_threads s k = some M ∧
        ∀ t, t < 64 → (M.contains t ↔
          (t < s.num_threads ∧ cnts.getD t 0 < s.sequential_queue_limit))) ∧
    (∀ wt wc, s.write_locks k = some (wt, wc) →
      ThreadAwareAccountLocks.read_schedulable_threads s k =
        some (if wc + ThreadAwareAccountLocks.read_count s k wt <
                s.sequential_queue_limit
              then ThreadSet.only wt else ThreadSet.none)) ∧
    (s.write_locks k = Option.none → s.read_locks k = Option.none →
      ThreadAwareAccountLocks.write_schedulable_threads s k
        = some (ThreadSet.any s.num_threads)) ∧
    (∀ ts cnts u, s.write_locks k = Option.none →
      s.read_locks k = some (ts, cnts) →
      u < 64 → (∀ i, i < 64 → (ts.contains i ↔ i = u)) →
      ThreadAwareAccountLocks.write_schedulable_threads s k =
        some (if cnts.getD u 0 < s.sequential_queue_limit then ThreadSet.only u
              else ThreadSet.none)) ∧
    (∀ ts cnts u v, s.write_locks k = Option.none →
      s.read_locks k = some (ts, cnts) →
      u < 64 → v < 64 → u ≠ v → ts.contains u → ts.contains v →
      ThreadAwareAccountLocks.write_schedulable_threads s k
        = some ThreadSet.none) ∧
    (∀ wt wc, s.write_locks k = some (wt, wc) →
      ThreadAwareAccountLocks.write_schedulable_threads s k =
        some (if wc + ThreadAwareAccountLocks.read_count s k wt <
                s.sequential_queue_limit
              then ThreadSet.only wt else ThreadSet.none)) ∧
    (∀ ws rs : List K, ∃ A,
      ThreadAwareAccountLocks.accounts_schedulable_threads s ws rs = some A ∧
      ∀ t, t < 64 → (A.contains t ↔
        (t < s.num_threads ∧
         (∀ k' ∈ ws, ∀ M,
            ThreadAwareAccountLocks.write_schedulable_threads s k' = some M →
            M.contains t) ∧
         (∀ k' ∈ rs, ∀ M,
            ThreadAwareAccountLocks.read_schedulable_threads s k' = some M →
            M.contains t)))) := by
  obtain ⟨hnt0, hntle, hlim, hwf, hrf, hmix⟩ := hWf
  have hWf' : ThreadAwareAccountLocks.Wf s := ⟨hnt0, hntle, hlim, hwf, hrf, hmix⟩
  refine ⟨?_, ?_, ?_, ?_, ?_, ?_, ?_, ?_⟩
  · exact fun hw hr => ThreadAwareAccountLocks.read_schedulable_unlocked s k hw hr
  · intro ts cnts hw hr
    have hf := ThreadAwareAccountLocks.wfReadEntry_fields (hr ▸ hrf k)
    exact ThreadAwareAccountLocks.read_schedulable_read_only s k ts cnts hw hr
      hnt hlim (fun t ht => (hf.2.2.2 t ht).1) (fun t ht => (hf.2.2.2 t ht).2.1)
  · intro wt wc hw
    exact (ThreadAwareAccountLocks.schedulable_write_locked s k wt wc hw hWf').1
  · exact fun hw hr => ThreadAwareAccountLocks.write_schedulable_unlocked s k hw hr
  · intro ts cnts u hw hr hu hsing
    have hf := ThreadAwareAccountLocks.wfReadEntry_fields (hr ▸ hrf k)
    exact ThreadAwareAccountLocks.write_schedulable_read_only_single s k ts cnts
      u hw hr hf.2.2.1 hu hsing
  · intro ts cnts u v hw hr hu64 hv64 huv hcu hcv
    have hf := ThreadAwareAccountLocks.wfReadEntry_fields (hr ▸ hrf k)
    exact ThreadAwareAccountLocks.write_schedulable_read_only_multi s k ts cnts
      u v hw hr hf.2.2.1 hu64 hv64 huv hcu hcv
  · intro wt wc hw
    exact (ThreadAwareAccountLocks.schedulable_write_locked s k wt wc hw hWf').2
  · intro ws rs
    exact ThreadAwareAccountLocks.accounts_schedulable_characterization s hWf'
      hnt ws rs

/-- Witness for C1 on `sWriteT1` (write-locked once on thread 1, limit 2):
a readable account write-locked below the limit is schedulable exactly on
the write-holding thread. -/
theorem C1_accounts_schedulable_threads_witness :
    ThreadAwareAccountLocks.Wf sWriteT1 ∧
    sWriteT1.num_threads < 64 ∧
    sWriteT1.write_locks 0 = some (1, 1) ∧
    ThreadAwareAccountLocks.read_schedulable_threads sWriteT1 0 =
      some (if 1 + ThreadAwareAccountLocks.read_count sWriteT1 0 1 <
              sWriteT1.sequential_queue_limit
            then ThreadSet.only 1 else ThreadSet.none) := by
  have hWf : ThreadAwareAccountLocks.Wf sWriteT1 := by
    unfold ThreadAwareAccountLocks.Wf
    refine ⟨by norm_num [sWriteT1], by norm_num [sWriteT1],
      by norm_num [sWriteT1], ?_, ?_, ?_⟩ <;> decide
  exact ⟨hWf, by norm_num [sWriteT1],  rfl,
    (C1_accounts_schedulable_threads sWriteT1 hWf (by norm_num [sWriteT1])
      0).2.2.1 1 1 rfl⟩

/-- C3 counterexample: acquiring a read lock that pushes a per-account
per-thread count beyond `sequential_queue_limit` does **not** abort.  On the
well-formed table `sReadAtLimit` (limit 1, read count already 1 on thread
0), `read_lock_account` returns normally and leaves a count of 2. -/
theorem C3_read_lock_limit_counterexample :
    ThreadAwareAccountLocks.Wf sReadAtLimit ∧
    sReadAtLimit.sequential_queue_limit = 1 ∧
    ((sReadAtLimit.read_locks 0).map fun e => e.2.getD 0 0) = some 1 ∧
    (ThreadAwareAccountLocks.read_lock_account sReadAtLimit 0 0).isSome = true ∧
    ((ThreadAwareAccountLocks.read_lock_account sReadAtLimit 0 0).map fun s =>
        (s.read_locks 0).map fun e => e.2.getD 0 0) = some (some 2) := by
  refine ⟨?_, rfl, rfl, rfl, rfl⟩
  unfold ThreadAwareAccountLocks.Wf
  refine ⟨by norm_num [sReadAtLimit], by norm_num [sReadAtLimit],
    by norm_num [sReadAtLimit], ?_, ?_, ?_⟩ <;> decide

/-- C3 (amended): each caller-contract violation below causes the lock
table to abort (`Option.none`) rather than return: write-locking an account
already write-locked by a different thread, or whose read-lock set is not
exactly the singleton of the locking thread (the source asserts
`read_thread_set == ThreadSet::only(thread_id)`, which is how "read-locked
by a different thread" aborts); read-locking an account write-locked by a
different thread; unlocking (read or write) an account not locked on that
thread; and a **write**-lock acquisition that would push the count beyond
`sequential_queue_limit` (read-lock acquisitions perform no limit
check). -/
theorem C3_lock_table_aborts_on_violation {K : Type} [DecidableEq K]
    (s : ThreadAwareAccountLocks K) (k : K) (t : Nat) :
    (∀ t' c, s.write_locks k = some (t', c) → t' ≠ t →
        ThreadAwareAccountLocks.write_lock_account s k t = Option.none) ∧
    (∀ ts cnts, s.read_locks k = some (ts, cnts) → ts ≠ ThreadSet.only t →
        ThreadAwareAccountLocks.write_lock_account s k t = Option.none) ∧
    (∀ t' c, s.write_locks k = some (t', c) → t' ≠ t →
        ThreadAwareAccountLocks.read_lock_account s k t = Option.none) ∧
    (s.write_locks k = Option.none →
        ThreadAwareAccountLocks.write_unlock_account s k t = Option.none) ∧
    (∀ t' c, s.write_locks k = some (t', c) → t' ≠ t →
        ThreadAwareAccountLocks.write_unlock_account s k t = Option.none) ∧
    (s.read_locks k = Option.none →
        ThreadAwareAccountLocks.read_unlock_account s k t = Option.none) ∧
    (∀ ts cnts, s.read_locks k = some (ts, cnts) → ts.contains t = false →
        ThreadAwareAccountLocks.read_unlock_account s k t = Option.none) ∧
    (∀ c, s.write_locks k = some (t, c) → s.sequential_queue_limit ≤ c →
        ThreadAwareAccountLocks.write_lock_account s k t = Option.none) := by
  refine ⟨?_, ?_, ?_, ?_, ?_, ?_, ?_, ?_⟩
  · intro t' c h hne
    simp [ThreadAwareAccountLocks.write_lock_account, h, hne]
  · intro ts cnts h hts
    unfold ThreadAwareAccountLocks.write_lock_account
    cases hw : s.write_locks k with
    | none => simp [ThreadAwareAccountLocks.write_lock_check_read, h, hts]
    | some p =>
        obtain ⟨t', c⟩ := p
        by_cases ht' : t' = t
        · subst ht'
          by_cases hc : c + 1 ≤ s.sequential_queue_limit <;>
            simp [hc, ThreadAwareAccountLocks.write_lock_check_read, h, hts]
        · simp [ht']
  · intro t' c h hne
    simp [ThreadAwareAccountLocks.read_lock_account, h, hne]
  · intro h
    simp [ThreadAwareAccountLocks.write_unlock_account, h]
  · intro t' c h hne
    simp [ThreadAwareAccountLocks.write_unlock_account, h, hne]
  · intro h
    simp [ThreadAwareAccountLocks.read_unlock_account, h]
  · intro ts cnts h hts
    simp [ThreadAwareAccountLocks.read_unlock_account, h, hts]
  · intro c h hc
    have : ¬(c + 1 ≤ s.sequential_queue_limit) := by omega
    simp [ThreadAwareAccountLocks.write_lock_account, h, this]

/-- Witness for C3 (amended): on `sWriteT1` (write-locked on thread 1),
acquiring a write lock on thread 0 aborts. -/
theorem C3_lock_table_aborts_on_violation_witness :
    sWriteT1.write_locks 0 = some (1, 1) ∧ (1 : Nat) ≠ 0 ∧
    ThreadAwareAccountLocks.write_lock_account sWriteT1 0 0 = Option.none :=
  ⟨rfl, by norm_num,
   (C3_lock_table_aborts_on_violation sWriteT1 0 0).1 1 1 rfl (by norm_num)⟩

/-- C2 counterexample: `try_lock_accounts` has no caller-supplied
`schedulable_threads` parameter.  Following the spec's words
(`try_lock_accounts_spec`), an empty caller-supplied set forces the result
none with the table unchanged; the source function, which cannot receive
such a set, locks and returns thread 0 on the same inputs. -/
theorem C2_try_lock_parameter_counterexample :
    ThreadAwareAccountLocks.try_lock_accounts_spec sEmpty4 [(0 : Fin 1)] []
        ThreadSet.none (fun _ => 0) = some (Option.none, sEmpty4) ∧
    (ThreadAwareAccountLocks.try_lock_accounts sEmpty4 [(0 : Fin 1)] []
        (fun _ => 0)).map (fun r => r.1) = some (some 0) := by
  constructor
  · rfl
  · rfl

/-- C2 (amended): `try_lock_accounts` computes
`S = accounts_schedulable_threads(write_keys, read_keys)` — there is no
caller-supplied `schedulable_threads` parameter — and if `S` is empty it
returns none leaving the tables unchanged; otherwise it locks every write
key and read key on the thread chosen by `thread_selector S` and returns
that thread (for a selector returning an actual thread id, below 64: a
larger id could only appear in `S` as a wrapped alias of the u64 mask and
would panic the `thread_id < num_threads` assert of `lock_accounts`). -/
theorem C2_try_lock_accounts {K : Type} [DecidableEq K]
    (s : ThreadAwareAccountLocks K) (hWf : ThreadAwareAccountLocks.Wf s)
    (ws rs : List K) (sel : ThreadSet → Nat) (hnd : ws.Nodup) :
    ∃ S, ThreadAwareAccountLocks.accounts_schedulable_threads s ws rs = some S ∧
      (S.is_empty = true →
        ThreadAwareAccountLocks.try_lock_accounts s ws rs sel
          = some (Option.none, s)) ∧
      (S.is_empty = false → S.contains (sel S) = true → sel S < 64 →
        ∃ s', ThreadAwareAccountLocks.lock_accounts s ws rs (sel S) = some s' ∧
          ThreadAwareAccountLocks.try_lock_accounts s ws rs sel
            = some (some (sel S), s')) := by
  obtain ⟨S, hS⟩ :=
    ThreadAwareAccountLocks.accounts_schedulable_isSome s hWf ws rs
  refine ⟨S, hS, ?_, ?_⟩
  · intro hempty
    unfold ThreadAwareAccountLocks.try_lock_accounts
    rw [hS]
    simp [hempty]
  · intro hempty hsel hsel64
    obtain ⟨s', hs'⟩ := ThreadAwareAccountLocks.lock_accounts_succeeds_of_schedulable
      s hWf ws rs S (sel S) hsel64 hS hsel hnd
    refine ⟨s', hs', ?_⟩
    unfold ThreadAwareAccountLocks.try_lock_accounts
    rw [hS]
    simp [hempty, hs']

/-- Witness for C2 (amended) on the empty table `sEmpty4` with one write
key: the schedulable set is all four threads and locking succeeds on the
selected thread 0. -/
theorem C2_try_lock_accounts_witness :
    ThreadAwareAccountLocks.Wf sEmpty4 ∧ ([(0 : Fin 1)]).Nodup ∧
    (∃ S, ThreadAwareAccountLocks.accounts_schedulable_threads sEmpty4
        [(0 : Fin 1)] [] = some S ∧
      (S.is_empty = true →
        ThreadAwareAccountLocks.try_lock_accounts sEmpty4 [(0 : Fin 1)] []
          (fun _ => 0) = some (Option.none, sEmpty4)) ∧
      (S.is_empty = false → S.contains ((fun _ => 0) S) = true →
        (fun _ => 0 : ThreadSet → Nat) S < 64 →
        ∃ s', ThreadAwareAccountLocks.lock_accounts sEmpty4 [(0 : Fin 1)] []
            ((fun _ => 0) S) = some s' ∧
          ThreadAwareAccountLocks.try_lock_accounts sEmpty4 [(0 : Fin 1)] []
            (fun _ => 0) = some (some ((fun _ => 0) S), s'))) := by
  have hWf : ThreadAwareAccountLocks.Wf sEmpty4 := by
    unfold ThreadAwareAccountLocks.Wf
    refine ⟨by norm_num [sEmpty4], by norm_num [sEmpty4],
      by norm_num [sEmpty4], ?_, ?_, ?_⟩ <;> decide
  exact ⟨hWf, by decide,
    C2_try_lock_accounts sEmpty4 hWf [(0 : Fin 1)] [] (fun _ => 0) (by decide)⟩

/-- C4: if `lock_accounts` on write keys `ws` and read keys `rs` at thread
`t` succeeds from a well-formed table `s` (this is the lock application
performed by a successful `try_lock_accounts`), then unlocking the same
keys on the same thread — `unlock_accounts`, the per-key
`write_unlock_account` / `read_unlock_account` loops — restores the table
to exactly `s`, including removal of map entries whose counts return to
zero (the equality is of whole states, hence of both lock tables). -/
theorem C4_unlock_restores_lock {K : Type} [DecidableEq K]
    (s s₂ : ThreadAwareAccountLocks K) (ws rs : List K) (t : Nat)
    (hWf : ThreadAwareAccountLocks.Wf s) (hndw : ws.Nodup) (hndr : rs.Nodup)
    (h : ThreadAwareAccountLocks.lock_accounts s ws rs t = some s₂) :
    ThreadAwareAccountLocks.unlock_accounts s₂ ws rs t = some s := by
  have hU := ThreadAwareAccountLocks.wfU_of_wf hWf
  unfold ThreadAwareAccountLocks.lock_accounts at h
  split at h
  case isTrue htn =>
    rw [ThreadAwareAccountLocks.opt_bind_eq_some] at h
    obtain ⟨s₁, hw, hr⟩ := h
    have ht64 : t < 64 := lt_of_lt_of_le htn hWf.2.1
    have h7 : ThreadAwareAccountLocks.unlock_write_accounts s₁ ws t = some s :=
      ThreadAwareAccountLocks.lock_write_list_cancel hU hndw hw
    obtain ⟨w, hlrw, huw⟩ :=
      ThreadAwareAccountLocks.unlock_write_list_lock_read_list_comm h7 hr
    have h8 : ThreadAwareAccountLocks.unlock_read_accounts w rs t = some s :=
      ThreadAwareAccountLocks.lock_read_list_cancel hU ht64 hndr hlrw
    unfold ThreadAwareAccountLocks.unlock_accounts
    rw [huw]
    exact h8
  case isFalse _ =>
    exact absurd h (by simp)

/-- Witness for C4: on the empty two-key table, locking write key 0 and
read key 1 on thread 0 succeeds and unlocking them restores the table. -/
theorem C4_unlock_restores_lock_witness :
    ThreadAwareAccountLocks.Wf sEmptyTwoKeys ∧
    ([(0 : Fin 2)]).Nodup ∧ ([(1 : Fin 2)]).Nodup ∧
    (∃ s₂, ThreadAwareAccountLocks.lock_accounts sEmptyTwoKeys [(0 : Fin 2)]
        [(1 : Fin 2)] 0 = some s₂ ∧
      ThreadAwareAccountLocks.unlock_accounts s₂ [(0 : Fin 2)] [(1 : Fin 2)] 0
        = some sEmptyTwoKeys) := by
  have hWf : ThreadAwareAccountLocks.Wf sEmptyTwoKeys := by
    unfold ThreadAwareAccountLocks.Wf
    refine ⟨by norm_num [sEmptyTwoKeys], by norm_num [sEmptyTwoKeys],
      by norm_num [sEmptyTwoKeys], ?_, ?_, ?_⟩ <;> decide
  refine ⟨hWf, by decide, by decide, ?_⟩
  refine ⟨_, rfl, ?_⟩
  exact C4_unlock_restores_lock sEmptyTwoKeys _ [(0 : Fin 2)] [(1 : Fin 2)] 0
    hWf (by decide) (by decide) rfl

/-- C6 counterexample: the code computes the priority with saturating
arithmetic, not exact integer arithmetic.  At `reward = u64::MAX`,
`cost = 0`, `reward.saturating_mul(1_000_000)` clamps to `u64::MAX` and the
result is `u64::MAX`, while the spec's exact formula gives
`u64::MAX * 1000000`. -/
theorem C6_priority_saturation_counterexample :
    calculate_priority_and_cost U64_MAX 0
        ≠ calculate_priority_and_cost_spec U64_MAX 0 ∧
    calculate_priority_and_cost U64_MAX 0 = (U64_MAX, 0) ∧
    calculate_priority_and_cost_spec U64_MAX 0 = (U64_MAX * 1000000, 0) := by
  refine ⟨?_, ?_, ?_⟩
  · intro h
    have h1 := congrArg Prod.fst h
    simp only [calculate_priority_and_cost, calculate_priority_and_cost_spec,
      satDiv, satMul, satAdd, U64_MAX] at h1
    norm_num at h1
  · simp [calculate_priority_and_cost, satDiv, satMul, satAdd, U64_MAX]
  · simp [calculate_priority_and_cost_spec]

/-- C6 (amended): whenever `reward * 1000000` fits in a u64 and
`cost < u64::MAX`, the saturating operations are exact, so the priority
computed at buffering time equals `reward * 1000000 / (cost + 1)` in exact
integer arithmetic and `calculate_priority_and_cost` returns it paired
with the cost. -/
theorem C6_calculate_priority_and_cost (reward cost : Nat)
    (hr : reward * 1000000 ≤ U64_MAX) (hc : cost < U64_MAX) :
    calculate_priority_and_cost reward cost
      = (reward * 1000000 / (cost + 1), cost) := by
  unfold calculate_priority_and_cost satMul satAdd satDiv
  rw [min_eq_left hr, min_eq_left (by omega)]

/-- Witness for C6 (amended) at `reward = 2`, `cost = 3`. -/
theorem C6_calculate_priority_and_cost_witness :
    2 * 1000000 ≤ U64_MAX ∧ 3 < U64_MAX ∧
    calculate_priority_and_cost 2 3 = (2 * 1000000 / (3 + 1), 3) :=
  ⟨by norm_num [U64_MAX], by norm_num [U64_MAX],
   C6_calculate_priority_and_cost 2 3 (by norm_num [U64_MAX])
     (by norm_num [U64_MAX])⟩

/-- C5 (code bug): `push_id_into_queue` evicts when the queue merely
*reaches* capacity, not when an insertion would exceed it.  Inserting one
transaction into an *empty* container of capacity 1 reports an eviction
(returns true) and leaves both the priority queue and the map empty —
the container can never actually hold `capacity` entries.  The repo's own
test `test_priority_queue_capacity` (capacity 1, five inserts, expects
queue length 1) fails on this code. -/
theorem C5_premature_eviction :
    (TransactionStateContainer.with_capacity 1 :
        TransactionStateContainer Unit).priority_queue.length = 0 ∧
    ((TransactionStateContainer.with_capacity 1 :
        TransactionStateContainer Unit).insert_new_transaction ⟨(), 0⟩ ⟨5, 0⟩).map
      (fun r => (r.1, r.2.priority_queue.length,
        r.2.id_to_transaction_state.entries.length)) = some (true, 0, 0) :=
  ⟨rfl, rfl⟩

theorem except_bind_ok {ε α β : Type} {x : Except ε α} {f : α → Except ε β}
    {b : β} : (x >>= f) = .ok b ↔ ∃ a, x = .ok a ∧ f a = .ok b := by
  cases x <;> simp [Bind.bind, Except.bind]

theorem send_batch_empty {K : Type} (ift : InFlightTracker) (b : Batches K)
    (j : Nat) (connected : Nat → Bool)
    (h : (b.ids.getD j []).isEmpty = true) :
    send_batch ift b j connected = .ok (0, ift, b) := by
  unfold send_batch
  exact if_pos h

theorem sendfold_empty_run {K : Type} (connected : Nat → Bool) (t : Nat)
    (acc : Nat × InFlightTracker × Batches K)
    (hpre : ∀ j, j < t → (acc.2.2.ids.getD j []).isEmpty = true) :
    (List.range t).foldlM
      (fun acc thread_index =>
        (send_batch acc.2.1 acc.2.2 thread_index connected).map
          fun r => (acc.1 + r.1, r.2)) acc = .ok acc := by
  induction t with
  | zero => rfl
  | succ n ih =>
      rw [List.range_succ, List.foldlM_append]
      rw [ih fun j hj => hpre j (Nat.lt_succ_of_lt hj)]
      have hn := hpre n (Nat.lt_succ_self n)
      have hsb := send_batch_empty acc.2.1 acc.2.2 n connected hn
      show List.foldlM
          (fun acc thread_index =>
            Except.map (fun r => (acc.1 + r.1, r.2))
              (send_batch acc.2.1 acc.2.2 thread_index connected))
          acc [n] = Except.ok acc
      rw [List.foldlM_cons, hsb]
      rfl

/-- C9: attempting to ship a non-empty batch to a worker whose
`ConsumeWork` receiving end is closed makes `send_batch` return the
`DisconnectedSendChannel "consume work sender"` error, and `send_batches`
(whose sum over `Result` short-circuits) propagates that error — the
scheduling pass stops with it rather than dropping the failure. -/
theorem C9_disconnected_send_channel {K : Type} (ift : InFlightTracker)
    (batches : Batches K) (t num_senders : Nat) (connected : Nat → Bool)
    (hne : (batches.ids.getD t []).isEmpty = false)
    (hdis : connected t = false)
    (hpre : ∀ j, j < t → (batches.ids.getD j []).isEmpty = true)
    (ht : t < num_senders) :
    send_batch ift batches t connected
      = .error (.DisconnectedSendChannel "consume work sender") ∧
    send_batches ift batches num_senders connected
      = .error (.DisconnectedSendChannel "consume work sender") := by
  have h1 : send_batch ift batches t connected
      = .error (.DisconnectedSendChannel "consume work sender") := by
    unfold send_batch
    simp only [hne, hdis]
    rfl
  refine ⟨h1, ?_⟩
  clear hne hdis
  induction num_senders with
  | zero => omega
  | succ n ih =>
      unfold send_batches
      rw [List.range_succ, List.foldlM_append]
      rcases Nat.lt_succ_iff_lt_or_eq.mp ht with hlt | heq
      · have := ih hlt
        unfold send_batches at this
        rw [this]
        rfl
      · subst heq
        rw [sendfold_empty_run connected t (0, ift, batches) hpre]
        show List.foldlM
            (fun acc thread_index =>
              Except.map (fun r => (acc.1 + r.1, r.2))
                (send_batch acc.2.1 acc.2.2 thread_index connected))
            ((0 : Nat), ift, batches) [t]
          = Except.error (SchedulerError.DisconnectedSendChannel "consume work sender")
        rw [List.foldlM_cons, h1]
        rfl

/-- Witness for C9: one worker whose channel is closed, with one buffered
transaction for it. -/
theorem C9_disconnected_send_channel_witness :
    ((sBatches1.ids.getD 0 []).isEmpty = false) ∧
    ((fun _ => false : Nat → Bool) 0 = false) ∧
    send_batch sIFT sBatches1 0 (fun _ => false)
      = .error (.DisconnectedSendChannel "consume work sender") ∧
    send_batches sIFT sBatches1 1 (fun _ => false)
      = .error (.DisconnectedSendChannel "consume work sender") := by
  have h := C9_disconnected_send_channel sIFT sBatches1 0 1 (fun _ => false)
    rfl rfl (fun j hj => absurd hj (Nat.not_lt_zero j)) (by decide)
  exact ⟨rfl, rfl, h.1, h.2⟩

theorem getD_set_if {α : Type} (l : List α) (i : Nat) (v d : α) :
    (l.set i v).getD i d = if i < l.length then v else d := by
  induction l generalizing i with
  | nil => simp
  | cons x xs ih =>
      cases i with
      | zero => simp
      | succ j =>
          simp only [List.set_cons_succ, List.getD_cons_succ, ih,
            List.length_cons, Nat.succ_lt_succ_iff]

theorem getD_set_ne_idx {α : Type} (l : List α) (i j : Nat) (v d : α)
    (hne : i ≠ j) : (l.set i v).getD j d = l.getD j d := by
  induction l generalizing i j with
  | nil => simp
  | cons x xs ih =>
      cases i with
      | zero =>
          cases j with
          | zero => exact absurd rfl hne
          | succ j' => simp
      | succ i' =>
          cases j with
          | zero => simp
          | succ j' =>
              simp only [List.set_cons_succ, List.getD_cons_succ]
              exact ih i' j' fun h => hne (congrArg Nat.succ h)

theorem sum_set_nat {l : List Nat} {i : Nat} (h : i < l.length) (a : Nat) :
    (l.set i a).sum + l.getD i 0 = l.sum + a := by
  induction l generalizing i with
  | nil => simp at h
  | cons x xs ih =>
      cases i with
      | zero => simp [List.sum_cons]; omega
      | succ j =>
          simp only [List.set_cons_succ, List.getD_cons_succ, List.sum_cons]
          have := ih (Nat.lt_of_succ_lt_succ h)
          omega

theorem getD_map_length {α : Type} (l : List (List α)) (i : Nat) :
    (l.map List.length).getD i 0 = (l.getD i []).length := by
  induction l generalizing i with
  | nil => simp
  | cons x xs ih =>
      cases i with
      | zero => rfl
      | succ j => simpa using ih j

theorem sum_range_lengths {α : Type} (l : List (List α)) :
    ((List.range l.length).map fun j => (l.getD j []).length).sum
      = (l.map List.length).sum := by
  induction l with
  | nil => rfl
  | cons x xs ih =>
      rw [List.length_cons, List.range_succ_eq_map, List.map_cons,
        List.map_map, List.sum_cons]
      have hcomp :
          ((fun j => ((x :: xs).getD j []).length) ∘ Nat.succ)
            = fun j => (xs.getD j []).length := by
        funext j
        rfl
      rw [hcomp, ih, List.map_cons, List.sum_cons]
      rfl

theorem totalIds_push {K : Type} (b : Batches K) (t id : Nat)
    (tx : SanitizedTransaction K) (slot cu : Nat) (ht : t < b.ids.length) :
    totalIds (b.push t id tx slot cu) = totalIds b + 1 := by
  unfold totalIds Batches.push
  rw [List.map_set]
  have hs := sum_set_nat (l := b.ids.map List.length) (i := t)
    (by simpa using ht) (b.ids.getD t [] ++ [id]).length
  rw [getD_map_length] at hs
  have hlen : (b.ids.getD t [] ++ [id]).length = (b.ids.getD t []).length + 1 := by
    simp
  omega

theorem totalIds_take {K : Type} (b : Batches K) (t : Nat) :
    totalIds ((b.take_batch t).2) + (b.ids.getD t []).length = totalIds b := by
  unfold totalIds Batches.take_batch
  by_cases ht : t < b.ids.length
  · rw [List.map_set]
    have hs := sum_set_nat (l := b.ids.map List.length) (i := t)
      (by simpa using ht) ([] : List Nat).length
    rw [getD_map_length] at hs
    simpa using hs
  · rw [List.set_eq_of_length_le (by omega)]
    rw [List.getD_eq_default _ _ (by omega)]
    simp

theorem send_batch_ok_shape {K : Type} {ift : InFlightTracker}
    {b : Batches K} {t : Nat} {connected : Nat → Bool} {m : Nat}
    {ift2 : InFlightTracker} {b2 : Batches K}
    (h : send_batch ift b t connected = .ok (m, ift2, b2)) :
    ((b.ids.getD t []).isEmpty = true ∧ m = 0 ∧ ift2 = ift ∧ b2 = b) ∨
    ((b.ids.getD t []).isEmpty = false ∧ connected t = true ∧
      m = (b.ids.getD t []).length ∧ b2 = (b.take_batch t).2) := by
  cases hemp : (b.ids.getD t []).isEmpty with
  | true =>
      left
      rw [send_batch_empty ift b t connected hemp] at h
      simp only [Except.ok.injEq, Prod.mk.injEq] at h
      exact ⟨rfl, h.1.symm, h.2.1.symm, h.2.2.symm⟩
  | false =>
      right
      cases hconn : connected t with
      | false =>
          have herr : send_batch ift b t connected
              = .error (.DisconnectedSendChannel "consume work sender") := by
            unfold send_batch
            simp only [hemp, hconn]
            rfl
          rw [herr] at h
          exact absurd h (by simp)
      | true =>
          have hok : send_batch ift b t connected
              = .ok ((b.ids.getD t []).length,
                  (ift.track_batch (b.ids.getD t []).length
                    (b.total_cus.getD t 0) t).2, (b.take_batch t).2) := by
            unfold send_batch
            simp only [hemp, hconn]
            rfl
          rw [hok] at h
          simp only [Except.ok.injEq, Prod.mk.injEq] at h
          exact ⟨rfl, rfl, h.1.symm, h.2.2.symm⟩

theorem isEmpty_eq_nil {α : Type} {l : List α} (h : l.isEmpty = true) :
    l = [] := by
  cases l with
  | nil => rfl
  | cons x xs => simp at h

theorem sendfold_total {K : Type} (connected : Nat → Bool) :
    ∀ (n k : Nat) (ift : InFlightTracker) (b : Batches K) (m : Nat)
      (ift' : InFlightTracker) (b' : Batches K),
      (List.range n).foldlM
        (fun acc thread_index =>
          (send_batch acc.2.1 acc.2.2 thread_index connected).map
            fun r => (acc.1 + r.1, r.2)) (k, ift, b) = .ok (m, ift', b') →
      m = k + ((List.range n).map fun j => (b.ids.getD j []).length).sum ∧
      (∀ j, b'.ids.getD j [] = if j < n then [] else b.ids.getD j []) ∧
      b'.ids.length = b.ids.length := by
  intro n
  induction n with
  | zero =>
      intro k ift b m ift' b' h
      simp only [List.range_zero, List.foldlM_nil] at h
      have h' : (Except.ok (k, ift, b) : Except SchedulerError _)
          = .ok (m, ift', b') := h
      simp only [Except.ok.injEq, Prod.mk.injEq] at h'
      obtain ⟨h1, h2, h3⟩ := h'
      subst h1; subst h3
      exact ⟨by simp, fun j => by simp, rfl⟩
  | succ n ih =>
      intro k ift b m ift' b' h
      rw [List.range_succ, List.foldlM_append] at h
      rw [except_bind_ok] at h
      obtain ⟨acc1, h1, h2⟩ := h
      obtain ⟨m1, ift1, b1⟩ := acc1
      obtain ⟨hm1, hb1, hlen1⟩ := ih k ift b m1 ift1 b1 h1
      rw [List.foldlM_cons] at h2
      rw [except_bind_ok] at h2
      obtain ⟨r2, hr2, hp2⟩ := h2
      simp only [List.foldlM_nil] at hp2
      have hr2' : r2 = (m, ift', b') :=
        Except.ok.inj (hp2 : (Except.ok r2 : Except SchedulerError _) = _)
      subst hr2'
      cases hsb : send_batch ift1 b1 n connected with
      | error e =>
          rw [hsb] at hr2
          exact absurd hr2 (by simp [Except.map])
      | ok val =>
          rw [hsb] at hr2
          obtain ⟨v1, vift, vb⟩ := val
          simp only [Except.map, Except.ok.injEq, Prod.mk.injEq] at hr2
          obtain ⟨hm', hift', hb'⟩ := hr2
          have hb1n := hb1 n
          rw [if_neg (lt_irrefl n)] at hb1n
          rcases send_batch_ok_shape hsb with
            ⟨hemp, hv0, _, hvb⟩ | ⟨hemp, _, hvl, hvb⟩
          · have hbn : b.ids.getD n [] = [] := by
              rw [← hb1n]
              exact isEmpty_eq_nil hemp
            have hb'b1 : b' = b1 := by rw [← hb', hvb]
            refine ⟨?_, ?_, by rw [hb'b1]; exact hlen1⟩
            · rw [List.range_succ, List.map_append, List.sum_append]
              simp only [List.map_cons, List.map_nil, List.sum_cons,
                List.sum_nil, hbn, List.length_nil]
              omega
            · intro j
              rw [hb'b1]
              have hbj := hb1 j
              by_cases hj : j < n + 1
              · rw [if_pos hj]
                by_cases hjn : j < n
                · rw [if_pos hjn] at hbj
                  exact hbj
                · have : j = n := by omega
                  subst this
                  rw [hb1n, hbn]
              · rw [if_neg hj]
                rw [if_neg (by omega)] at hbj
                exact hbj
          · have hlen_eq : v1 = (b.ids.getD n []).length := by
              rw [hvl, hb1n]
            have hb'set : b'.ids = b1.ids.set n [] := by
              rw [← hb']
              rw [hvb]
              rfl
            refine ⟨?_, ?_, by rw [hb'set, List.length_set]; exact hlen1⟩
            · rw [List.range_succ, List.map_append, List.sum_append]
              simp only [List.map_cons, List.map_nil, List.sum_cons,
                List.sum_nil]
              omega
            · intro j
              rw [hb'set]
              by_cases hjn : j = n
              · subst hjn
                rw [if_pos (Nat.lt_succ_self _), getD_set_if, ite_self]
              · rw [getD_set_ne_idx _ _ _ _ _ fun h => hjn h.symm]
                have hbj := hb1 j
                by_cases hj : j < n + 1
                · rw [if_pos hj]
                  rw [if_pos (by omega)] at hbj
                  exact hbj
                · rw [if_neg hj]
                  rw [if_neg (by omega)] at hbj
                  exact hbj

theorem send_batches_total {K : Type} {connected : Nat → Bool}
    {num_senders : Nat} {ift : InFlightTracker} {b : Batches K}
    {m : Nat} {ift' : InFlightTracker} {b' : Batches K}
    (hlen : b.ids.length = num_senders)
    (h : send_batches ift b num_senders connected = .ok (m, ift', b')) :
    m = totalIds b ∧ totalIds b' = 0 ∧ b'.ids.length = num_senders := by
  unfold send_batches at h
  obtain ⟨hm, hb', hlen'⟩ := sendfold_total connected num_senders 0 ift b
    m ift' b' h
  have hb'len : b'.ids.length = num_senders := by rw [hlen']; exact hlen
  refine ⟨?_, ?_, hb'len⟩
  · rw [hm, ← hlen, sum_range_lengths]
    have htot : totalIds b = (b.ids.map List.length).sum := rfl
    omega
  · rw [show totalIds b'
        = ((List.range b'.ids.length).map fun j => (b'.ids.getD j []).length).sum
      from (sum_range_lengths b'.ids).symm]
    apply List.sum_eq_zero
    intro x hx
    simp only [List.mem_map, List.mem_range] at hx
    obtain ⟨j, hj, hxeq⟩ := hx
    rw [hb'len] at hj
    rw [← hxeq, hb' j, if_pos hj]
    rfl

theorem scheduleEvents_invariant {K : Type} (TARGET : Nat)
    (connected : Nat → Bool) (num_senders : Nat) :
    ∀ (events : List (SchedEvent K)) (ns sent : Nat) (ift : InFlightTracker)
      (b : Batches K) (ns' sent' : Nat) (ift' : InFlightTracker)
      (b' : Batches K),
      (∀ e ∈ events, ∀ t id tx slot cu,
        e = SchedEvent.sched t id tx slot cu → t < num_senders) →
      b.ids.length = num_senders →
      ns = sent + totalIds b →
      scheduleEvents num_senders TARGET connected events ns sent ift b
        = .ok (ns', sent', ift', b') →
      ns' = sent' + totalIds b' ∧ b'.ids.length = num_senders := by
  intro events
  induction events with
  | nil =>
      intro ns sent ift b ns' sent' ift' b' hth hlen hinv h
      simp only [scheduleEvents, Except.ok.injEq, Prod.mk.injEq] at h
      obtain ⟨h1, h2, h3, h4⟩ := h
      subst h1; subst h2; subst h4
      exact ⟨hinv, hlen⟩
  | cons e rest ih =>
      intro ns sent ift b ns' sent' ift' b' hth hlen hinv h
      have hth' : ∀ e ∈ rest, ∀ t id tx slot cu,
          e = SchedEvent.sched t id tx slot cu → t < num_senders :=
        fun e he => hth e (List.mem_cons_of_mem _ he)
      cases e with
      | skip =>
          simp only [scheduleEvents] at h
          exact ih ns sent ift b ns' sent' ift' b' hth' hlen hinv h
      | sched t id tx slot cu =>
          have ht : t < num_senders :=
            hth _ (List.mem_cons_self _ _) t id tx slot cu rfl
          have htb : t < b.ids.length := by omega
          have hpush_tot : totalIds (b.push t id tx slot cu) = totalIds b + 1 :=
            totalIds_push b t id tx slot cu htb
          have hpush_len : (b.push t id tx slot cu).ids.length = num_senders := by
            simp only [Batches.push, List.length_set]
            exact hlen
          simp only [scheduleEvents] at h
          split at h
          case isTrue hT =>
              split at h
              case h_1 e heq =>
                  exact absurd h (by simp)
              case h_2 val m2 ift2 b2 heq =>
                  rcases send_batch_ok_shape heq with
                    ⟨hemp, _, _, _⟩ | ⟨_, _, hm, hb2⟩
                  · simp only [Batches.push] at hemp
                    rw [getD_set_if, if_pos htb] at hemp
                    simp at hemp
                  · subst hb2
                    have htake := totalIds_take (b.push t id tx slot cu) t
                    have hg : (b.push t id tx slot cu).ids.getD t []
                        = b.ids.getD t [] ++ [id] := by
                      simp only [Batches.push]
                      rw [getD_set_if, if_pos htb]
                    refine ih (ns + 1) (sent + m2) ift2 _ ns' sent' ift' b'
                      hth' ?_ ?_ h
                    · simp only [Batches.take_batch, List.length_set, hpush_len]
                    · rw [hg] at htake
                      rw [hm, hg]
                      omega
          case isFalse hT =>
              exact ih (ns + 1) sent ift _ ns' sent' ift' b' hth' hpush_len
                (by omega) h
      | flush =>
          simp only [scheduleEvents] at h
          split at h
          case h_1 e heq =>
              exact absurd h (by simp)
          case h_2 val m2 ift2 b2 heq =>
              obtain ⟨hm2, htot2, hlen2⟩ := send_batches_total hlen heq
              exact ih ns (sent + m2) ift2 b2 ns' sent' ift' b' hth' hlen2
                (by omega) h

/-- C10: the closing `assert!(num_scheduled == sent_scheduled_transactions)`
of `schedule` never fires on the success path: whenever the pass's loop —
including its in-loop target-size sends and the per-outer-iteration
`send_batches` flushes of line 182 — and the final `send_batches` all
succeed, the number of transactions transitioned to Pending
(`num_scheduled`) equals the total number sent over the worker channels,
so `schedule` returns `Ok(num_scheduled)` and never panics
(`Option.none`). -/
theorem C10_schedule_count_consistency {K : Type} (num_senders TARGET : Nat)
    (connected : Nat → Bool) (events : List (SchedEvent K))
    (ift : InFlightTracker)
    (hth : ∀ e ∈ events, ∀ t id tx slot cu,
      e = SchedEvent.sched t id tx slot cu → t < num_senders) :
    schedule num_senders TARGET connected events ift ≠ Option.none ∧
    ∀ ns sent ift1 b1 m ift2 b2,
      scheduleEvents num_senders TARGET connected events 0 0 ift
          (Batches.new K num_senders) = .ok (ns, sent, ift1, b1) →
      send_batches ift1 b1 num_senders connected = .ok (m, ift2, b2) →
      ns = sent + m ∧
      schedule num_senders TARGET connected events ift = some (.ok ns) := by
  have hnew_len : (Batches.new K num_senders).ids.length = num_senders := by
    simp [Batches.new]
  have hnew_tot : totalIds (Batches.new K num_senders) = 0 := by
    simp [Batches.new, totalIds]
  have key : ∀ ns sent ift1 b1 m ift2 b2,
      scheduleEvents num_senders TARGET connected events 0 0 ift
          (Batches.new K num_senders) = .ok (ns, sent, ift1, b1) →
      send_batches ift1 b1 num_senders connected = .ok (m, ift2, b2) →
      ns = sent + m := by
    intro ns sent ift1 b1 m ift2 b2 hse hsb
    obtain ⟨hinv, hlen1⟩ := scheduleEvents_invariant TARGET connected
      num_senders events 0 0 ift (Batches.new K num_senders) ns sent ift1 b1
      hth hnew_len (by rw [hnew_tot]) hse
    obtain ⟨hm, _, _⟩ := send_batches_total hlen1 hsb
    omega
  constructor
  · unfold schedule
    cases hse : scheduleEvents num_senders TARGET connected events 0 0 ift
        (Batches.new K num_senders) with
    | error e => simp
    | ok a =>
        obtain ⟨ns, sent, ift1, b1⟩ := a
        cases hsb : send_batches ift1 b1 num_senders connected with
        | error e => simp [hsb]
        | ok r =>
            obtain ⟨m, ift2, b2⟩ := r
            have hkey := key ns sent ift1 b1 m ift2 b2 hse hsb
            simp [hsb, hkey]
  · intro ns sent ift1 b1 m ift2 b2 hse hsb
    have hkey := key ns sent ift1 b1 m ift2 b2 hse hsb
    refine ⟨hkey, ?_⟩
    unfold schedule
    simp only [hse, hsb]
    rw [if_pos hkey]

/-- Witness for C10: one worker, two scheduled transactions with a
mid-pass flush between them, healthy channel — the pass returns Ok 2 and
2 transactions were sent (one by the flush, one by the final send). -/
theorem C10_schedule_count_consistency_witness :
    (schedule 1 3 (fun _ => true)
        [SchedEvent.sched 0 5 (⟨[], []⟩ : SanitizedTransaction (Fin 1)) 9 7,
         SchedEvent.flush,
         SchedEvent.sched 0 6 (⟨[], []⟩ : SanitizedTransaction (Fin 1)) 9 7]
        sIFT ≠ Option.none) ∧
    (2 = 1 + 1 ∧ schedule 1 3 (fun _ => true)
        [SchedEvent.sched 0 5 (⟨[], []⟩ : SanitizedTransaction (Fin 1)) 9 7,
         SchedEvent.flush,
         SchedEvent.sched 0 6 (⟨[], []⟩ : SanitizedTransaction (Fin 1)) 9 7]
        sIFT = some (.ok 2)) := by
  have hth : ∀ e ∈ [SchedEvent.sched 0 5
      (⟨[], []⟩ : SanitizedTransaction (Fin 1)) 9 7,
      SchedEvent.flush,
      SchedEvent.sched 0 6 (⟨[], []⟩ : SanitizedTransaction (Fin 1)) 9 7],
      ∀ t id tx slot cu, e = SchedEvent.sched t id tx slot cu → t < 1 := by
    intro e he t id tx slot cu heq
    subst heq
    simp only [List.mem_cons, List.not_mem_nil, or_false] at he
    rcases he with he | he | he
    · cases he; decide
    · exact absurd he (by simp)
    · cases he; decide
  have h := C10_schedule_count_consistency 1 3 (fun _ => true)
    [SchedEvent.sched 0 5 (⟨[], []⟩ : SanitizedTransaction (Fin 1)) 9 7,
     SchedEvent.flush,
     SchedEvent.sched 0 6 (⟨[], []⟩ : SanitizedTransaction (Fin 1)) 9 7]
    sIFT hth
  exact ⟨h.1, h.2 2 1 _ _ 1 _ _ rfl rfl⟩

theorem process_retryable_spec_drop {K : Type} :
    ∀ (triples : List (Nat × SanitizedTransaction K × Nat))
      (c : TransactionStateContainer (SanitizedTransaction K))
      (idx r : Nat) (rtl : List Nat), r < idx →
      process_retryable_spec c idx triples (r :: rtl)
        = process_retryable_spec c idx triples rtl := by
  intro triples
  induction triples with
  | nil => intro c idx r rtl hr; rfl
  | cons p rest ih =>
      intro c idx r rtl hr
      obtain ⟨id, tx, slot⟩ := p
      simp only [process_retryable_spec]
      have hmem : (idx ∈ r :: rtl) ↔ (idx ∈ rtl) := by
        constructor
        · intro h
          rcases List.mem_cons.mp h with h | h
          · omega
          · exact h
        · exact fun h => List.mem_cons_of_mem _ h
      by_cases hm : idx ∈ rtl
      · rw [if_pos (hmem.mpr hm), if_pos hm]
        cases hrt : c.retry_transaction id ⟨tx, slot⟩ with
        | none => rfl
        | some q =>
            obtain ⟨bq, c2⟩ := q
            exact ih c2 (idx + 1) r rtl (by omega)
      · rw [if_neg (fun h => hm (hmem.mp h)), if_neg hm]
        cases hrb : c.remove_by_id id with
        | none => rfl
        | some c2 => exact ih c2 (idx + 1) r rtl (by omega)

theorem process_retryable_eq_spec {K : Type} :
    ∀ (triples : List (Nat × SanitizedTransaction K × Nat))
      (c : TransactionStateContainer (SanitizedTransaction K))
      (idx : Nat) (retryable : List Nat),
      List.Pairwise (· < ·) retryable → (∀ r ∈ retryable, idx ≤ r) →
      process_retryable c idx triples retryable
        = process_retryable_spec c idx triples retryable := by
  intro triples
  induction triples with
  | nil => intro c idx retryable hs hge; rfl
  | cons p rest ih =>
      intro c idx retryable hs hge
      obtain ⟨id, tx, slot⟩ := p
      cases retryable with
      | nil =>
          simp only [process_retryable, process_retryable_spec]
          rw [if_neg (List.not_mem_nil idx)]
          cases hrb : c.remove_by_id id with
          | none => rfl
          | some c2 =>
              exact ih c2 (idx + 1) [] List.Pairwise.nil (by simp)
      | cons r rtl =>
          obtain ⟨hhead, htail⟩ := List.pairwise_cons.mp hs
          by_cases hri : r = idx
          · simp only [process_retryable, process_retryable_spec]
            rw [if_pos hri, if_pos (hri ▸ List.mem_cons_self r rtl)]
            cases hrt : c.retry_transaction id ⟨tx, slot⟩ with
            | none => rfl
            | some q =>
                obtain ⟨bq, c2⟩ := q
                show process_retryable c2 (idx + 1) rest rtl
                  = process_retryable_spec c2 (idx + 1) rest (r :: rtl)
                rw [ih c2 (idx + 1) rtl htail
                  (fun x hx => by have := hhead x hx; omega)]
                rw [process_retryable_spec_drop rest c2 (idx + 1) r rtl
                  (by omega)]
          · have hlt : idx < r :=
              lt_of_le_of_ne (hge r (List.mem_cons_self r rtl))
                fun h => hri h.symm
            have hnm : idx ∉ r :: rtl := by
              intro h
              rcases List.mem_cons.mp h with h | h
              · omega
              · have := hhead idx h
                omega
            simp only [process_retryable, process_retryable_spec]
            rw [if_neg hri, if_neg hnm]
            cases hrb : c.remove_by_id id with
            | none => rfl
            | some c2 =>
                exact ih c2 (idx + 1) (r :: rtl) hs fun x hx => by
                  rcases List.mem_cons.mp hx with h | h
                  · omega
                  · have := hhead x h
                    omega

/-- C8: a `FinishedConsumeWork` whose `retryable_indexes` are sorted
ascending is processed as specified: a disconnected completion channel
yields the `DisconnectedRecvChannel "finished consume work"` error; on a
received message the batch is completed in the in-flight tracker yielding
its thread id, every transaction's write and read account locks are
released on that thread id, and the container is transformed exactly as
`process_retryable_spec` prescribes — every index in `retryable_indexes`
is transitioned back to Unprocessed and re-inserted into the priority
queue (possibly evicting), every other index is removed from the map. -/
theorem C8_try_receive_completed {K : Type} [DecidableEq K]
    (s : PrioGraphScheduler K)
    (container : TransactionStateContainer (SanitizedTransaction K))
    (hp : Bool) (fin : FinishedConsumeWork K)
    (hsorted : List.Pairwise (· < ·) fin.retryable_indexes) :
    try_receive_completed s container hp .Disconnected
      = some (.error (.DisconnectedRecvChannel "finished consume work")) ∧
    try_receive_completed s container hp .Empty
      = some (.ok (false, s, container)) ∧
    ∀ b s' c', try_receive_completed s container hp (.Ok fin)
        = some (.ok (b, s', c')) →
      b = true ∧
      ∃ thread_id ift',
        s.in_flight_tracker.complete_batch fin.work.batch_id
          = some (thread_id, ift') ∧
        s'.in_flight_tracker = ift' ∧
        fin.work.transactions.foldlM
          (fun locks tx => ThreadAwareAccountLocks.unlock_accounts locks
            tx.writable tx.readonly thread_id) s.account_locks
          = some s'.account_locks ∧
        process_retryable_spec container 0
          (fin.work.ids.zip (fin.work.transactions.zip fin.work.max_age_slots))
          fin.retryable_indexes = some c' := by
  refine ⟨rfl, rfl, ?_⟩
  intro b s' c' h
  simp only [try_receive_completed] at h
  cases hcb : PrioGraphScheduler.complete_batch s fin.work.batch_id
      fin.work.transactions with
  | none =>
      rw [hcb] at h
      exact absurd h (by simp)
  | some p =>
      obtain ⟨tid0, s1⟩ := p
      rw [hcb] at h
      have h2 : (if (hp &&
            (collect_priority_ids container fin.work.ids).isNone) = true
            then Option.none
            else match process_retryable container 0
                (fin.work.ids.zip (fin.work.transactions.zip
                  fin.work.max_age_slots)) fin.retryable_indexes with
              | Option.none => Option.none
              | some c2 => some (Except.ok (true, s1, c2)))
          = some (Except.ok (b, s', c')) := h
      split at h2
      case isTrue => exact absurd h2 (by simp)
      case isFalse =>
          cases hpr : process_retryable container 0
              (fin.work.ids.zip (fin.work.transactions.zip
                fin.work.max_age_slots)) fin.retryable_indexes with
          | none =>
              rw [hpr] at h2
              exact absurd h2 (by simp)
          | some c2 =>
              rw [hpr] at h2
              have h3 : some (Except.ok (true, s1, c2))
                  = some (Except.ok (b, s', c')) := h2
              simp only [Option.some.injEq, Except.ok.injEq,
                Prod.mk.injEq] at h3
              obtain ⟨hb, hs', hc'⟩ := h3
              subst hb; subst hs'; subst hc'
              refine ⟨rfl, ?_⟩
              unfold PrioGraphScheduler.complete_batch at hcb
              cases hift : s.in_flight_tracker.complete_batch
                  fin.work.batch_id with
              | none =>
                  rw [hift] at hcb
                  exact absurd hcb (by simp)
              | some q =>
                  obtain ⟨thread_id, ift'⟩ := q
                  rw [hift] at hcb
                  have h4 : (match fin.work.transactions.foldlM
                        (fun locks tx =>
                          ThreadAwareAccountLocks.unlock_accounts locks
                            tx.writable tx.readonly thread_id)
                        s.account_locks with
                      | Option.none => Option.none
                      | some locks2 => some (thread_id,
                          (⟨locks2, ift'⟩ : PrioGraphScheduler K)))
                      = some (tid0, s1) := hcb
                  cases hfold : fin.work.transactions.foldlM
                      (fun locks tx =>
                        ThreadAwareAccountLocks.unlock_accounts locks
                          tx.writable tx.readonly thread_id)
                      s.account_locks with
                  | none =>
                      rw [hfold] at h4
                      exact absurd h4 (by simp)
                  | some locks2 =>
                      rw [hfold] at h4
                      have h5 : some (thread_id,
                            (⟨locks2, ift'⟩ : PrioGraphScheduler K))
                          = some (tid0, s1) := h4
                      simp only [Option.some.injEq, Prod.mk.injEq] at h5
                      obtain ⟨htid, hs1⟩ := h5
                      refine ⟨thread_id, ift', rfl, ?_, ?_, ?_⟩
                      · rw [← hs1]
                      · rw [← hs1]
                        exact hfold
                      · rw [← process_retryable_eq_spec _ container 0
                            fin.retryable_indexes hsorted
                            (fun r _ => Nat.zero_le r)]
                        exact hpr

/-- Witness for C8: batch 9 completes on thread 0, transaction 7 is
retried back into the queue, and the disconnected case errors. -/
theorem C8_try_receive_completed_witness :
    List.Pairwise (fun a b => a < b) sFin8.retryable_indexes ∧
    (try_receive_completed sSched8 sCont8 true .Disconnected
      = some (.error (.DisconnectedRecvChannel "finished consume work"))) ∧
    ∃ b s' c', try_receive_completed sSched8 sCont8 true (.Ok sFin8)
        = some (.ok (b, s', c')) ∧ b = true ∧
      ∃ thread_id ift',
        sSched8.in_flight_tracker.complete_batch sFin8.work.batch_id
          = some (thread_id, ift') := by
  have hsorted : List.Pairwise (fun a b => a < b) sFin8.retryable_indexes := by
    simp [sFin8]
  have h := C8_try_receive_completed sSched8 sCont8 true sFin8 hsorted
  refine ⟨hsorted, h.1, ?_⟩
  obtain ⟨hb, thread_id, ift', hift, _⟩ := h.2.2 _ _ _ rfl
  exact ⟨_, _, _, rfl, hb, thread_id, ift', hift⟩

end Agave
